import Mathlib

/-!
Verification of the page-replacement simulator.

The simulation core `computeSteps (pages, frameCount, algo)` of `src/script.js`
is embedded below, together with the simulation loop of `simulate` from the
second source file.  Pages are modelled as natural numbers (the source accepts
any comparable identifiers; the parsing of the DOM input into identifiers is
outside the simulation core).  JavaScript array primitives used by the source
(`indexOf`, `lastIndexOf`, `splice(k, 1, v)`, `shift`, `push`) are modelled
exactly, including their `-1` sentinel and negative-index clamping.
-/

/-- JS `Array.prototype.indexOf`: index of the first occurrence of `x` in `l`,
or `-1` when `x` does not occur. -/
def jsIndexOf (l : List Nat) (x : Nat) : Int :=
  match l.findIdx? (fun y => y = x) with
  | some k => (k : Int)
  | none => -1

/-- JS `Array.prototype.lastIndexOf`: index of the last occurrence of `x` in
`l`, or `-1` when `x` does not occur. -/
def jsLastIndexOf (l : List Nat) (x : Nat) : Int :=
  match l.reverse.findIdx? (fun y => y = x) with
  | some k => ((l.length - 1 - k : Nat) : Int)
  | none => -1

/-- JS `l.splice(start, 1, v)`: replace one element at `start` by `v`.
A negative `start` counts from the end and is clamped at `0`; a `start`
beyond the end deletes nothing and appends `v`, exactly as in JS. -/
def spliceReplace (l : List Nat) (start : Int) (v : Nat) : List Nat :=
  let s : Nat := if start < 0 then l.length - (-start).toNat else min start.toNat l.length
  l.take s ++ [v] ++ l.drop (s + 1)

/-- JS `l.splice(start, 1)`: delete one element at `start` (same index
clamping as `spliceReplace`). -/
def spliceRemove (l : List Nat) (start : Int) : List Nat :=
  let s : Nat := if start < 0 then l.length - (-start).toNat else min start.toNat l.length
  l.take s ++ l.drop (s + 1)

/-- The `meta.lastUsed` JS `Map`, as an association list (page, last index). -/
abbrev LUMap := List (Nat × Nat)

/-- `Map.get` composed with `Map.has`. -/
def getLU (m : LUMap) (p : Nat) : Option Nat :=
  (m.find? (fun q => q.1 = p)).map (fun q => q.2)

/-- `Map.set`. -/
def setLU (m : LUMap) (p v : Nat) : LUMap :=
  (p, v) :: m.filter (fun q => ¬ q.1 = p)

/-- `Map.delete`. -/
def delLU (m : LUMap) (p : Nat) : LUMap :=
  m.filter (fun q => ¬ q.1 = p)

/-- `meta.lastUsed.has(p) ? meta.lastUsed.get(p) : -1` from the LRU branch. -/
def luVal (m : LUMap) (p : Nat) : Int :=
  match getLU m p with
  | some v => (v : Int)
  | none => -1

/-- One step record pushed into `result` by `computeSteps`. -/
structure Step where
  index : Nat
  page : Nat
  memory : List Nat
  hit : Bool
  replacedIndex : Int
  info : String
deriving DecidableEq, Repr

/-- The mutable state of `computeSteps`' loop: the `memory` array, the
`meta` bookkeeping and the accumulated `result`, `faults`, `hits`. -/
structure SimState where
  memory : List Nat
  fifoQueue : List Nat
  lastUsed : LUMap
  result : List Step
  faults : Nat
  hits : Nat
deriving Repr

/-- The LRU victim scan: `for (const p of memory) { const last = ...; if
(last < oldestIndex) { oldestIndex = last; oldestPage = p; } }` with
`oldestIndex` initialised to `Infinity` (modelled by `none`). -/
def lruScanStep (lu : LUMap) (acc : Option Nat × Option Int) (p : Nat) :
    Option Nat × Option Int :=
  let last := luVal lu p
  match acc.2 with
  | none => (some p, some last)
  | some oi => if last < oi then (some p, some last) else acc

def lruScan (lu : LUMap) (memory : List Nat) : Option Nat × Option Int :=
  memory.foldl (lruScanStep lu) (none, none)

/-- `future.indexOf(m)` in the Optimal branch. -/
def nextUseI (future : List Nat) (m : Nat) : Int := jsIndexOf future m

/-- The Optimal victim scan: `memory.forEach(m => { const nextUse =
future.indexOf(m); if (nextUse === -1) { victim = m; farthest = Infinity;
return; } if (nextUse > farthest) { farthest = nextUse; victim = m; } })`
with `farthest` initialised to `-1`; `none` models `Infinity`. -/
def optScanStep (future : List Nat) (acc : Option Nat × Option Int) (m : Nat) :
    Option Nat × Option Int :=
  let nu := nextUseI future m
  if nu = -1 then (some m, none)
  else
    match acc.2 with
    | none => acc
    | some f => if nu > f then (some m, some nu) else acc

def optScan (future : List Nat) (memory : List Nat) : Option Nat × Option Int :=
  memory.foldl (optScanStep future) (none, some (-1))

/-- The body of `pages.forEach((page, i) => ...)` inside `computeSteps`. -/
def procOne (pages : List Nat) (frameCount : Nat) (algo : String)
    (i : Nat) (page : Nat) (st : SimState) : SimState :=
  if page ∈ st.memory then
    -- hit
    { st with
      hits := st.hits + 1
      lastUsed := setLU st.lastUsed page i
      result := st.result ++ [⟨i, page, st.memory, true, -1, "Hit"⟩] }
  else if st.memory.length < frameCount then
    -- page fault, free slot available
    let memory := st.memory ++ [page]
    { memory := memory
      fifoQueue := st.fifoQueue ++ [page]
      lastUsed := setLU st.lastUsed page i
      result := st.result ++
        [⟨i, page, memory, false, (memory.length : Int) - 1, "Placed into free slot"⟩]
      faults := st.faults + 1
      hits := st.hits }
  else if algo = "fifo" then
    -- FIFO: remove oldest enqueued page
    let old? := st.fifoQueue.head?
    let q1 := st.fifoQueue.tail
    let ri : Int := match old? with | some o => jsIndexOf st.memory o | none => -1
    let memory := spliceReplace st.memory ri page
    let lu1 := setLU st.lastUsed page i
    let lu2 := match old? with | some o => delLU lu1 o | none => lu1
    let infoS := match old? with
      | some o => "FIFO replaced " ++ toString o
      | none => "FIFO replaced undefined"
    { memory := memory
      fifoQueue := q1 ++ [page]
      lastUsed := lu2
      result := st.result ++ [⟨i, page, memory, false, ri, infoS⟩]
      faults := st.faults + 1
      hits := st.hits }
  else if algo = "lru" then
    -- find page with smallest lastUsed (oldest)
    let v? := (lruScan st.lastUsed st.memory).1
    let ri : Int := match v? with | some v => jsIndexOf st.memory v | none => -1
    let memory := spliceReplace st.memory ri page
    let lu1 := match v? with | some v => delLU st.lastUsed v | none => st.lastUsed
    let lu2 := setLU lu1 page i
    let q' := match v? with
      | some v =>
        let qi := jsIndexOf st.fifoQueue v
        if qi = -1 then st.fifoQueue else spliceReplace st.fifoQueue qi page
      | none => st.fifoQueue
    let infoS := match v? with
      | some v => "LRU replaced " ++ toString v
      | none => "LRU replaced null"
    { memory := memory
      fifoQueue := q'
      lastUsed := lu2
      result := st.result ++ [⟨i, page, memory, false, ri, infoS⟩]
      faults := st.faults + 1
      hits := st.hits }
  else if algo = "optimal" then
    -- look ahead to next occurrence of each resident page
    let future := pages.drop (i + 1)
    let v? := (optScan future st.memory).1
    let ri : Int := match v? with | some v => jsIndexOf st.memory v | none => -1
    let memory := spliceReplace st.memory ri page
    let lu1 := match v? with | some v => delLU st.lastUsed v | none => st.lastUsed
    let lu2 := setLU lu1 page i
    let q' := match v? with
      | some v =>
        let qi := jsIndexOf st.fifoQueue v
        if qi = -1 then st.fifoQueue else spliceReplace st.fifoQueue qi page
      | none => st.fifoQueue
    let infoS := match v? with
      | some v => "Optimal replaced " ++ toString v
      | none => "Optimal replaced null"
    { memory := memory
      fifoQueue := q'
      lastUsed := lu2
      result := st.result ++ [⟨i, page, memory, false, ri, infoS⟩]
      faults := st.faults + 1
      hits := st.hits }
  else
    -- unrecognized algorithm: faults was already incremented, nothing pushed
    { st with faults := st.faults + 1 }

def simLoop (pages : List Nat) (frameCount : Nat) (algo : String) :
    Nat → List Nat → SimState → SimState
  | _, [], st => st
  | i, p :: rest, st =>
      simLoop pages frameCount algo (i + 1) rest (procOne pages frameCount algo i p st)

def initState : SimState := ⟨[], [], [], [], 0, 0⟩

/-- The value returned by `computeSteps`: `{ steps: result, totals: { faults, hits } }`. -/
structure SimResult where
  steps : List Step
  faults : Nat
  hits : Nat
deriving DecidableEq, Repr

/-- `computeSteps(pages, frameCount, algo)` from `src/script.js`. -/
def computeSteps (pages : List Nat) (frameCount : Nat) (algo : String) : SimResult :=
  let st := simLoop pages frameCount algo 0 pages initState
  ⟨st.result, st.faults, st.hits⟩

/-- The loop state of `computeSteps` after the first `k` accesses. -/
def stateAt (pages : List Nat) (frameCount : Nat) (algo : String) (k : Nat) : SimState :=
  simLoop pages frameCount algo 0 (pages.take k) initState

/-- `clampFrames(val)` from `src/script.js`: `Math.max(1, Math.floor(Number(val) || 0))`.
The DOM string has already been converted to a number; `Math.floor` is the
identity on integers and `Number(val) || 0` maps a non-numeric input to `0`,
which `max 1` subsumes. -/
def clampFrames (val : Int) : Int := max 1 val

/-- The recognized algorithm selectors. -/
def recognized (algo : String) : Prop :=
  algo = "fifo" ∨ algo = "lru" ∨ algo = "optimal"

instance (algo : String) : Decidable (recognized algo) := by
  unfold recognized; infer_instance

/-! ## The second implementation: `simulate` from the second source file -/

/-- `Math.min(...l)` over a list of integers; `none` models the `Infinity`
returned on an empty spread. -/
def listMinI : List Int → Option Int
  | [] => none
  | x :: xs => some (xs.foldl min x)

/-- `l.indexOf(x)` over a list of integers. -/
def jsIndexOfI (l : List Int) (x : Int) : Int :=
  match l.findIdx? (fun y => y = x) with
  | some k => (k : Int)
  | none => -1

/-- Next-use distances with `Infinity` (`none`) for pages that never
reappear, as computed in the Optimal branch of `simulate`:
`idx === -1 ? Infinity : idx`. -/
def nextUseO (future : List Nat) (m : Nat) : Option Int :=
  let idx := jsIndexOf future m
  if idx = -1 then none else some idx

/-- `Math.max` over possibly-infinite values (`none` = `Infinity`). -/
def maxI (a b : Option Int) : Option Int :=
  match a, b with
  | none, _ => none
  | _, none => none
  | some a, some b => some (max a b)

/-- `Math.max(...l)`; `none` result models the spread of an empty list. -/
def listMaxI : List (Option Int) → Option (Option Int)
  | [] => none
  | x :: xs => some (xs.foldl maxI x)

/-- `l.indexOf(x)` over the Optimal branch's index list. -/
def jsIndexOfO (l : List (Option Int)) (x : Option Int) : Int :=
  match l.findIdx? (fun y => y = x) with
  | some k => (k : Int)
  | none => -1

/-- State of the `simulate` loop from the second source file: the `memory`
array, the `faults` counter, and the per-access hit flags passed to
`renderStep`. -/
structure Sim2State where
  memory : List Nat
  faults : Nat
  hitsLog : List Bool
deriving DecidableEq, Repr

/-- The body of `pages.forEach((page, i) => ...)` inside `simulate` from the
second source file.  On a full fault the algorithm branch removes the victim
and then `memory.push(page)` appends the new page; an unrecognized algorithm
skips the removal but still pushes. -/
def proc2 (pages : List Nat) (frames : Nat) (algo : String)
    (i : Nat) (page : Nat) (st : Sim2State) : Sim2State :=
  if page ∈ st.memory then
    { st with hitsLog := st.hitsLog ++ [true] }
  else
    let memory :=
      if st.memory.length < frames then
        st.memory ++ [page]
      else if algo = "fifo" then
        st.memory.tail ++ [page]
      else if algo = "lru" then
        let past := pages.take i
        let idxs := st.memory.map (fun m => jsLastIndexOf past m)
        let rep : Int := match listMinI idxs with
          | some mn => jsIndexOfI idxs mn
          | none => -1
        spliceRemove st.memory rep ++ [page]
      else if algo = "optimal" then
        let future := pages.drop (i + 1)
        let idxs := st.memory.map (fun m => nextUseO future m)
        let rep : Int := match listMaxI idxs with
          | some mx => jsIndexOfO idxs mx
          | none => -1
        spliceRemove st.memory rep ++ [page]
      else
        st.memory ++ [page]
    { memory := memory, faults := st.faults + 1, hitsLog := st.hitsLog ++ [false] }

def sim2Loop (pages : List Nat) (frames : Nat) (algo : String) :
    Nat → List Nat → Sim2State → Sim2State
  | _, [], st => st
  | i, p :: rest, st =>
      sim2Loop pages frames algo (i + 1) rest (proc2 pages frames algo i p st)

/-- The simulation loop of `simulate` from the second source file (the DOM
input parsing and the rendering of each step are outside the loop). -/
def simulate (pages : List Nat) (frames : Nat) (algo : String) : Sim2State :=
  sim2Loop pages frames algo 0 pages ⟨[], 0, []⟩

/-- The loop state of `simulate` after the first `k` accesses. -/
def state2At (pages : List Nat) (frames : Nat) (algo : String) (k : Nat) : Sim2State :=
  sim2Loop pages frames algo 0 (pages.take k) ⟨[], 0, []⟩

/-- Comparison of next-use distances where `none` models `+Infinity`. -/
def leNUb : Option Int → Option Int → Bool
  | _, none => true
  | none, some _ => false
  | some a, some b => decide (a ≤ b)

/-- `lastUsed(p)` as the specification defines it for access position `i`:
the largest index `j ≤ i-1` at which `p` was accessed — every position
`j < i` with `pages[j] = p` is an access of `p` (a hit or a placement) —
or `-1` if `p` does not occur before `i`.  This is exactly
`pages.slice(0, i).lastIndexOf(p)`. -/
def lastAccess (pages : List Nat) (i : Nat) (p : Nat) : Int :=
  jsLastIndexOf (pages.take i) p

/-- `placedCond pages fc algo n p` holds when access `n` places page `p`
into a frame: the accessed page is `p` and the access is a fault. -/
def placedCond (pages : List Nat) (fc : Nat) (algo : String) (n p : Nat) : Bool :=
  (pages.getD n 0 == p) &&
    (decide (pages.getD n 0 ∉ (stateAt pages fc algo n).memory))

/-- The position of the placement that brought the page into its current
residency: the last fault on `p` before step `n`. -/
def lastPlacedIdx (pages : List Nat) (fc : Nat) (algo : String) (n p : Nat) :
    Option Nat :=
  ((List.range n).filter (fun k => placedCond pages fc algo k p)).getLast?

/-- The coupled invariant of the FIFO run: the display array and the arrival
queue hold the same pages, the queue has no duplicates, every enqueued page
records a placement, and the queue is sorted by placement position. -/
def FifoQueueInv (pages : List Nat) (fc : Nat) (n : Nat) : Prop :=
  (∀ q, q ∈ (stateAt pages fc "fifo" n).memory ↔
    q ∈ (stateAt pages fc "fifo" n).fifoQueue) ∧
  (stateAt pages fc "fifo" n).fifoQueue.Nodup ∧
  (∀ q ∈ (stateAt pages fc "fifo" n).fifoQueue,
    ∃ j, lastPlacedIdx pages fc "fifo" n q = some j ∧ j < n) ∧
  (stateAt pages fc "fifo" n).fifoQueue.Pairwise (fun a b =>
    ∀ ja jb, lastPlacedIdx pages fc "fifo" n a = some ja →
      lastPlacedIdx pages fc "fifo" n b = some jb → ja < jb)

/-! ## helper: splice at a valid index is `List.set` / `List.eraseIdx` -/

theorem spliceReplace_eq_set {l : List Nat} {k : Nat} (hk : k < l.length) (v : Nat) :
    spliceReplace l (k : Int) v = l.set k v := by
  unfold spliceReplace
  rw [List.set_eq_take_append_cons_drop, if_pos hk]
  have h1 : ¬ ((k : Int) < 0) := by omega
  have h2 : ((k : Int)).toNat = k := by omega
  simp [h1, h2, Nat.min_eq_left (Nat.le_of_lt hk)]

theorem spliceRemove_eq_eraseIdx {l : List Nat} {k : Nat} (hk : k < l.length) :
    spliceRemove l (k : Int) = l.eraseIdx k := by
  unfold spliceRemove
  rw [List.eraseIdx_eq_take_drop_succ]
  have h1 : ¬ ((k : Int) < 0) := by omega
  have h2 : ((k : Int)).toNat = k := by omega
  simp [h1, h2, Nat.min_eq_left (Nat.le_of_lt hk)]

theorem length_spliceReplace {l : List Nat} {k : Nat} (hk : k < l.length) (v : Nat) :
    (spliceReplace l (k : Int) v).length = l.length := by
  rw [spliceReplace_eq_set hk]; simp

theorem spliceReplace_getD_self {l : List Nat} {k : Nat} (hk : k < l.length) (v : Nat) :
    (spliceReplace l (k : Int) v).getD k 0 = v := by
  rw [spliceReplace_eq_set hk]
  have hk' : k < (l.set k v).length := by simpa using hk
  rw [List.getD_eq_getElem?_getD, List.getElem?_eq_getElem hk']
  simp

theorem spliceReplace_getD_ne {l : List Nat} {k j : Nat} (hk : k < l.length)
    (hj : j < l.length) (hne : j ≠ k) (v : Nat) :
    (spliceReplace l (k : Int) v).getD j 0 = l.getD j 0 := by
  rw [spliceReplace_eq_set hk]
  have hj' : j < (l.set k v).length := by simpa using hj
  rw [List.getD_eq_getElem?_getD, List.getElem?_eq_getElem hj',
    List.getD_eq_getElem?_getD, List.getElem?_eq_getElem hj]
  simp [List.getElem_set_ne (fun hh => hne hh.symm)]

theorem mem_spliceReplace_iff {l : List Nat} {k : Nat} (hnd : l.Nodup)
    (hk : k < l.length) (v q : Nat) :
    q ∈ spliceReplace l (k : Int) v ↔ q = v ∨ (q ∈ l ∧ q ≠ l.getD k 0) := by
  rw [spliceReplace_eq_set hk]
  have hgetD : l.getD k 0 = l.get ⟨k, hk⟩ := by
    rw [List.getD_eq_getElem?_getD, List.getElem?_eq_getElem hk]; rfl
  constructor
  · intro hq
    obtain ⟨j, hj, hget⟩ := List.mem_iff_getElem.mp hq
    by_cases hjk : j = k
    · subst hjk
      rw [List.getElem_set_self] at hget
      exact Or.inl hget.symm
    · have hjl : j < l.length := by simpa using hj
      rw [List.getElem_set_ne (fun hh => hjk hh.symm)] at hget
      refine Or.inr ⟨hget ▸ List.getElem_mem hjl, ?_⟩
      rw [hgetD]
      intro hcon
      apply hjk
      have : l.get ⟨j, hjl⟩ = l.get ⟨k, hk⟩ := by
        simp only [List.get_eq_getElem]
        rw [hget, hcon]
        simp [List.get_eq_getElem]
      exact Fin.mk.injEq _ _ _ _ ▸ (List.Nodup.get_inj_iff hnd).mp this
  · rintro (rfl | ⟨hql, hne⟩)
    · exact List.mem_set l k hk q
    · obtain ⟨j, hjl, hget⟩ := List.mem_iff_getElem.mp hql
      have hjk : j ≠ k := by
        intro hh
        subst hh
        exact hne (by rw [hgetD]; simpa using hget.symm)
      rw [List.mem_iff_getElem]
      refine ⟨j, by simpa using hjl, ?_⟩
      rw [List.getElem_set_ne (fun hh => hjk hh.symm)]
      exact hget

theorem nodup_spliceReplace {l : List Nat} {k : Nat} (hnd : l.Nodup)
    (v : Nat) (hv : v ∉ l) :
    (spliceReplace l (k : Int) v).Nodup := by
  by_cases hk : k < l.length
  · rw [spliceReplace_eq_set hk]
    exact List.Nodup.set hnd hv
  · unfold spliceReplace
    have h1 : ¬ ((k : Int) < 0) := by omega
    have h2 : ((k : Int)).toNat = k := by omega
    have h3 : min k l.length = l.length := by omega
    simp only [h1, if_false, h2, h3]
    rw [List.take_length, List.drop_eq_nil_of_le (by omega)]
    simp only [List.append_nil]
    rw [List.nodup_append]
    exact ⟨hnd, List.nodup_singleton v, by simpa using hv⟩


/-! ## Unfolding lemmas for the `computeSteps` loop -/

theorem simLoop_append (pages : List Nat) (fc : Nat) (algo : String)
    (l1 l2 : List Nat) (i : Nat) (st : SimState) :
    simLoop pages fc algo i (l1 ++ l2) st =
      simLoop pages fc algo (i + l1.length) l2 (simLoop pages fc algo i l1 st) := by
  induction l1 generalizing i st with
  | nil => simp [simLoop]
  | cons p rest ih =>
    simp only [List.cons_append, simLoop, List.length_cons, List.append_eq]
    rw [ih]
    have : i + (rest.length + 1) = (i + 1) + rest.length := by omega
    rw [this]

theorem stateAt_zero (pages : List Nat) (fc : Nat) (algo : String) :
    stateAt pages fc algo 0 = initState := by
  simp [stateAt, simLoop]

theorem stateAt_succ (pages : List Nat) (fc : Nat) (algo : String) {k : Nat}
    (hk : k < pages.length) :
    stateAt pages fc algo (k + 1) =
      procOne pages fc algo k (pages.getD k 0) (stateAt pages fc algo k) := by
  have hg : pages.getD k 0 = pages[k] := by
    rw [List.getD_eq_getElem?_getD, List.getElem?_eq_getElem hk]; rfl
  unfold stateAt
  rw [hg, List.take_succ, List.getElem?_eq_getElem hk]
  rw [simLoop_append]
  simp [simLoop, List.length_take, Nat.min_eq_left (Nat.le_of_lt hk)]

theorem stateAt_of_ge (pages : List Nat) (fc : Nat) (algo : String) {k : Nat}
    (hk : pages.length ≤ k) :
    stateAt pages fc algo k = stateAt pages fc algo pages.length := by
  unfold stateAt
  rw [List.take_of_length_le hk, List.take_length]

theorem computeSteps_eq (pages : List Nat) (fc : Nat) (algo : String) :
    computeSteps pages fc algo =
      ⟨(stateAt pages fc algo pages.length).result,
       (stateAt pages fc algo pages.length).faults,
       (stateAt pages fc algo pages.length).hits⟩ := by
  unfold computeSteps stateAt
  rw [List.take_length]

/-! ## Branch lemmas for `procOne` -/

theorem procOne_hit {pages : List Nat} {fc : Nat} {algo : String} {i page : Nat}
    {st : SimState} (h : page ∈ st.memory) :
    procOne pages fc algo i page st =
      { st with
        hits := st.hits + 1
        lastUsed := setLU st.lastUsed page i
        result := st.result ++ [⟨i, page, st.memory, true, -1, "Hit"⟩] } := by
  unfold procOne
  rw [if_pos h]

theorem procOne_free {pages : List Nat} {fc : Nat} {algo : String} {i page : Nat}
    {st : SimState} (h1 : page ∉ st.memory) (h2 : st.memory.length < fc) :
    procOne pages fc algo i page st =
      { memory := st.memory ++ [page]
        fifoQueue := st.fifoQueue ++ [page]
        lastUsed := setLU st.lastUsed page i
        result := st.result ++
          [⟨i, page, st.memory ++ [page], false, (st.memory.length : Int),
            "Placed into free slot"⟩]
        faults := st.faults + 1
        hits := st.hits } := by
  unfold procOne
  rw [if_neg h1, if_pos h2]
  have : ((st.memory ++ [page]).length : Int) - 1 = (st.memory.length : Int) := by
    simp
  simp only [this]

theorem procOne_full_fifo {pages : List Nat} {fc : Nat} {i page : Nat}
    {st : SimState} {old : Nat} {qtail : List Nat}
    (h1 : page ∉ st.memory) (h2 : ¬ st.memory.length < fc)
    (hq : st.fifoQueue = old :: qtail) :
    procOne pages fc "fifo" i page st =
      { memory := spliceReplace st.memory (jsIndexOf st.memory old) page
        fifoQueue := qtail ++ [page]
        lastUsed := delLU (setLU st.lastUsed page i) old
        result := st.result ++
          [⟨i, page, spliceReplace st.memory (jsIndexOf st.memory old) page, false,
            jsIndexOf st.memory old, "FIFO replaced " ++ toString old⟩]
        faults := st.faults + 1
        hits := st.hits } := by
  unfold procOne
  rw [if_neg h1, if_neg h2, if_pos rfl, hq]
  rfl

theorem procOne_full_lru {pages : List Nat} {fc : Nat} {i page : Nat}
    {st : SimState} {v : Nat}
    (h1 : page ∉ st.memory) (h2 : ¬ st.memory.length < fc)
    (hv : (lruScan st.lastUsed st.memory).1 = some v) :
    procOne pages fc "lru" i page st =
      { memory := spliceReplace st.memory (jsIndexOf st.memory v) page
        fifoQueue :=
          if jsIndexOf st.fifoQueue v = -1 then st.fifoQueue
          else spliceReplace st.fifoQueue (jsIndexOf st.fifoQueue v) page
        lastUsed := setLU (delLU st.lastUsed v) page i
        result := st.result ++
          [⟨i, page, spliceReplace st.memory (jsIndexOf st.memory v) page, false,
            jsIndexOf st.memory v, "LRU replaced " ++ toString v⟩]
        faults := st.faults + 1
        hits := st.hits } := by
  unfold procOne
  rw [if_neg h1, if_neg h2, if_neg (by decide : ¬ ("lru" : String) = "fifo"),
    if_pos rfl, hv]

theorem procOne_full_opt {pages : List Nat} {fc : Nat} {i page : Nat}
    {st : SimState} {v : Nat}
    (h1 : page ∉ st.memory) (h2 : ¬ st.memory.length < fc)
    (hv : (optScan (pages.drop (i + 1)) st.memory).1 = some v) :
    procOne pages fc "optimal" i page st =
      { memory := spliceReplace st.memory (jsIndexOf st.memory v) page
        fifoQueue :=
          if jsIndexOf st.fifoQueue v = -1 then st.fifoQueue
          else spliceReplace st.fifoQueue (jsIndexOf st.fifoQueue v) page
        lastUsed := setLU (delLU st.lastUsed v) page i
        result := st.result ++
          [⟨i, page, spliceReplace st.memory (jsIndexOf st.memory v) page, false,
            jsIndexOf st.memory v, "Optimal replaced " ++ toString v⟩]
        faults := st.faults + 1
        hits := st.hits } := by
  unfold procOne
  rw [if_neg h1, if_neg h2, if_neg (by decide : ¬ ("optimal" : String) = "fifo"),
    if_neg (by decide : ¬ ("optimal" : String) = "lru"), if_pos rfl]
  simp only [hv]

theorem procOne_full_unknown {pages : List Nat} {fc : Nat} {algo : String}
    {i page : Nat} {st : SimState}
    (h1 : page ∉ st.memory) (h2 : ¬ st.memory.length < fc)
    (hA : ¬ recognized algo) :
    procOne pages fc algo i page st = { st with faults := st.faults + 1 } := by
  unfold procOne
  rw [if_neg h1, if_neg h2, if_neg (fun h => hA (Or.inl h)),
    if_neg (fun h => hA (Or.inr (Or.inl h))), if_neg (fun h => hA (Or.inr (Or.inr h)))]

theorem procOne_counters (pages : List Nat) (fc : Nat) (algo : String)
    (i page : Nat) (st : SimState) :
    (procOne pages fc algo i page st).faults + (procOne pages fc algo i page st).hits
      = st.faults + st.hits + 1 ∧
    ((procOne pages fc algo i page st).faults = st.faults ∨
      (procOne pages fc algo i page st).hits = st.hits) := by
  unfold procOne
  split_ifs <;> simp <;> omega

theorem procOne_result_snoc {pages : List Nat} {fc : Nat} {algo : String}
    {i page : Nat} {st : SimState} (hA : recognized algo) :
    ∃ r : Step, (procOne pages fc algo i page st).result = st.result ++ [r] := by
  unfold procOne
  split_ifs with h1 h2 h3 h4 h5
  · exact ⟨_, rfl⟩
  · exact ⟨_, rfl⟩
  · exact ⟨_, rfl⟩
  · exact ⟨_, rfl⟩
  · exact ⟨_, rfl⟩
  · rcases hA with h | h | h
    · exact absurd h h3
    · exact absurd h h4
    · exact absurd h h5

/-! ## Run-level lemmas -/

theorem stateAt_counters (pages : List Nat) (fc : Nat) (algo : String) :
    ∀ k, k ≤ pages.length →
      (stateAt pages fc algo k).faults + (stateAt pages fc algo k).hits = k := by
  intro k
  induction k with
  | zero => intro _; rw [stateAt_zero]; rfl
  | succ m ih =>
    intro hm
    have hlt : m < pages.length := by omega
    rw [stateAt_succ pages fc algo hlt]
    have h := procOne_counters pages fc algo m (pages.getD m 0) (stateAt pages fc algo m)
    rw [h.1, ih (by omega)]

theorem stateAt_counter_step (pages : List Nat) (fc : Nat) (algo : String)
    {k : Nat} (hk : k < pages.length) :
    ((stateAt pages fc algo (k + 1)).faults = (stateAt pages fc algo k).faults + 1 ∧
      (stateAt pages fc algo (k + 1)).hits = (stateAt pages fc algo k).hits) ∨
    ((stateAt pages fc algo (k + 1)).faults = (stateAt pages fc algo k).faults ∧
      (stateAt pages fc algo (k + 1)).hits = (stateAt pages fc algo k).hits + 1) := by
  rw [stateAt_succ pages fc algo hk]
  have h := procOne_counters pages fc algo k (pages.getD k 0) (stateAt pages fc algo k)
  rcases h.2 with hf | hh
  · right
    constructor
    · exact hf
    · omega
  · left
    constructor
    · omega
    · exact hh

theorem stateAt_result_length (pages : List Nat) (fc : Nat) (algo : String)
    (hA : recognized algo) :
    ∀ k, k ≤ pages.length → (stateAt pages fc algo k).result.length = k := by
  intro k
  induction k with
  | zero => intro _; rw [stateAt_zero]; rfl
  | succ m ih =>
    intro hm
    have hlt : m < pages.length := by omega
    rw [stateAt_succ pages fc algo hlt]
    obtain ⟨r, hr⟩ := @procOne_result_snoc pages fc algo m
      (pages.getD m 0) (stateAt pages fc algo m) hA
    rw [hr, List.length_append, ih (by omega)]
    rfl

theorem stateAt_result_get (pages : List Nat) (fc : Nat) (algo : String)
    (hA : recognized algo) {i : Nat} (hi : i < pages.length) :
    ∀ n, i < n → n ≤ pages.length →
      ((stateAt pages fc algo n).result)[i]? =
        ((stateAt pages fc algo (i + 1)).result)[i]? := by
  intro n
  induction n with
  | zero => omega
  | succ m ih =>
    intro h1 h2
    rcases Nat.lt_or_ge i m with hlt | hge
    · have hm : m < pages.length := by omega
      rw [stateAt_succ pages fc algo hm]
      obtain ⟨r, hr⟩ := @procOne_result_snoc pages fc algo m
        (pages.getD m 0) (stateAt pages fc algo m) hA
      rw [hr, List.getElem?_append_left
        (by rw [stateAt_result_length pages fc algo hA m (by omega)]; omega)]
      exact ih hlt (by omega)
    · have : i = m := by omega
      subst this
      rfl

/-- The step record produced for access `i`, as it appears both in the final
`steps` array and as the last record appended at step `i`. -/
theorem record_at (pages : List Nat) (fc : Nat) (algo : String)
    (hA : recognized algo) {i : Nat} (hi : i < pages.length) :
    ∃ r : Step, (computeSteps pages fc algo).steps[i]? = some r ∧
      (stateAt pages fc algo (i + 1)).result =
        (stateAt pages fc algo i).result ++ [r] := by
  rw [stateAt_succ pages fc algo hi]
  obtain ⟨r, hr⟩ := @procOne_result_snoc pages fc algo i
    (pages.getD i 0) (stateAt pages fc algo i) hA
  refine ⟨r, ?_, hr⟩
  rw [computeSteps_eq]
  have hs := stateAt_result_get pages fc algo hA hi pages.length hi (Nat.le_refl _)
  simp only at hs ⊢
  rw [hs, stateAt_succ pages fc algo hi, hr,
    List.getElem?_append_right
      (by rw [stateAt_result_length pages fc algo hA i (by omega)]),
    stateAt_result_length pages fc algo hA i (by omega)]
  simp

/-! ## Claim C1 -/

/-- C1: for every pages sequence, every capacity `C ≥ 1` and every algorithm
in {fifo, lru, optimal}, `computeSteps` returns a steps array whose length
equals `length pages`, with `faults + hits = length pages`; each access
appends exactly one step record and increments exactly one of the two
counters. -/
theorem computeSteps_length_and_totals (pages : List Nat) (fc : Nat)
    (hC : 1 ≤ fc) (algo : String) (hA : recognized algo) :
    (computeSteps pages fc algo).steps.length = pages.length ∧
    (computeSteps pages fc algo).faults + (computeSteps pages fc algo).hits
      = pages.length ∧
    ∀ k, k < pages.length →
      ((stateAt pages fc algo (k + 1)).result.length
          = (stateAt pages fc algo k).result.length + 1 ∧
        (((stateAt pages fc algo (k + 1)).faults
              = (stateAt pages fc algo k).faults + 1 ∧
          (stateAt pages fc algo (k + 1)).hits = (stateAt pages fc algo k).hits) ∨
         ((stateAt pages fc algo (k + 1)).faults = (stateAt pages fc algo k).faults ∧
          (stateAt pages fc algo (k + 1)).hits
              = (stateAt pages fc algo k).hits + 1))) := by
  refine ⟨?_, ?_, ?_⟩
  · rw [computeSteps_eq]
    exact stateAt_result_length pages fc algo hA pages.length (Nat.le_refl _)
  · rw [computeSteps_eq]
    exact stateAt_counters pages fc algo pages.length (Nat.le_refl _)
  · intro k hk
    constructor
    · rw [stateAt_result_length pages fc algo hA (k + 1) (by omega),
        stateAt_result_length pages fc algo hA k (by omega)]
    · exact stateAt_counter_step pages fc algo hk

theorem computeSteps_length_and_totals_witness :
    (computeSteps [3, 1, 3] 2 "lru").steps.length = 3 ∧
    (computeSteps [3, 1, 3] 2 "lru").faults + (computeSteps [3, 1, 3] 2 "lru").hits = 3 ∧
    (stateAt [3, 1, 3] 2 "lru" 1).result.length
      = (stateAt [3, 1, 3] 2 "lru" 0).result.length + 1 := by
  have h := computeSteps_length_and_totals [3, 1, 3] 2 (by decide) "lru" (by decide)
  exact ⟨h.1, h.2.1, (h.2.2 0 (by decide)).1⟩

/-! ## Claim C6 -/

/-- C6 counterexample: the simulator does not fail on `capacity < 1` —
`clampFrames` silently coerces such capacities to `1` — and it does not fail
on an unrecognized algorithm selector: `computeSteps` returns an ordinary
(and in fact partial) result, here with only 2 step records for 3 accesses. -/
theorem no_error_rejection_counterexample :
    clampFrames 0 = 1 ∧ clampFrames (-5) = 1 ∧
    (computeSteps [1, 1, 2] 1 "xyz") =
      ⟨[⟨0, 1, [1], false, 0, "Placed into free slot"⟩, ⟨1, 1, [1], true, -1, "Hit"⟩],
        2, 1⟩ ∧
    ¬ (computeSteps [1, 1, 2] 1 "xyz").steps.length = [1, 1, 2].length := by
  refine ⟨by decide, by decide, by decide, by decide⟩

/-- C6 amended: `clampFrames` clamps every capacity below 1 up to 1 instead
of rejecting it, and an unrecognized algorithm selector is not rejected
either: `computeSteps` always returns a result whose two counters still
account for every access, but under an unrecognized selector a full-memory
fault appends no step record, so the steps array can be shorter than the
input. -/
theorem clampFrames_and_unknown_algo_behavior :
    (∀ v : Int, 1 ≤ clampFrames v) ∧
    (∀ (pages : List Nat) (fc : Nat) (algo : String),
      (computeSteps pages fc algo).faults + (computeSteps pages fc algo).hits
        = pages.length) ∧
    (computeSteps [1, 1, 2] 1 "xyz").steps.length = 2 ∧
    (computeSteps [1, 1, 2] 1 "xyz").faults = 2 ∧
    (computeSteps [1, 1, 2] 1 "xyz").hits = 1 := by
  refine ⟨fun v => le_max_left 1 v, fun pages fc algo => ?_, by decide, by decide, by decide⟩
  rw [computeSteps_eq]
  exact stateAt_counters pages fc algo pages.length (Nat.le_refl _)

/-! ## Claim C9 -/

/-- C9 counterexample: on `pages = [7,0,1,2,0,3,0,4]`, `capacity = 3`,
`algorithm = fifo`, `computeSteps` yields 7 faults and 1 hit, not the
6 faults and 2 hits the claim states. -/
theorem scenario1_fifo_counterexample :
    ¬ ((computeSteps [7, 0, 1, 2, 0, 3, 0, 4] 3 "fifo").faults = 6 ∧
       (computeSteps [7, 0, 1, 2, 0, 3, 0, 4] 3 "fifo").hits = 2) := by
  decide

/-- C9 amended: on `pages = [7,0,1,2,0,3,0,4]`, `capacity = 3`,
`algorithm = fifo`, `computeSteps` yields `totalFaults = 7` and
`totalHits = 1`; the part of the claim that does hold is that the step for
page 2 (index 3) evicts page 7: slot 0 held page 7 before that access and
the step record replaces slot 0 with page 2. -/
theorem scenario1_fifo_actual :
    (computeSteps [7, 0, 1, 2, 0, 3, 0, 4] 3 "fifo").faults = 7 ∧
    (computeSteps [7, 0, 1, 2, 0, 3, 0, 4] 3 "fifo").hits = 1 ∧
    (computeSteps [7, 0, 1, 2, 0, 3, 0, 4] 3 "fifo").steps[3]? =
      some ⟨3, 2, [2, 0, 1], false, 0, "FIFO replaced 7"⟩ ∧
    (stateAt [7, 0, 1, 2, 0, 3, 0, 4] 3 "fifo" 3).memory = [7, 0, 1] := by
  refine ⟨by decide, by decide, by decide, by decide⟩

/-! ## Claim C7 (counterexample part) -/

/-- C7 counterexample: a fault served by filling a free slot (no eviction)
does not record `-1` ("none") as the replaced slot: the very first access
is placed into free slot 0 and the step records `replacedIndex = 0`. -/
theorem free_slot_replacedIndex_counterexample :
    (computeSteps [5] 1 "fifo").steps[0]? =
      some ⟨0, 5, [5], false, 0, "Placed into free slot"⟩ ∧
    ¬ ((0 : Int) = -1) := by
  refine ⟨by decide, by decide⟩

/-! ## Per-record characterization -/

theorem procOne_record_core {pages : List Nat} {fc : Nat} {algo : String}
    {i page : Nat} {st : SimState} (hA : recognized algo) :
    ∃ r : Step, (procOne pages fc algo i page st).result = st.result ++ [r] ∧
      r.index = i ∧ r.page = page ∧
      r.memory = (procOne pages fc algo i page st).memory ∧
      (r.hit = true ↔ page ∈ st.memory) := by
  unfold procOne
  split_ifs with h1 h2 h3 h4 h5
  · exact ⟨_, rfl, rfl, rfl, rfl, iff_of_true rfl h1⟩
  · exact ⟨_, rfl, rfl, rfl, rfl, iff_of_false (by simp) h1⟩
  · exact ⟨_, rfl, rfl, rfl, rfl, iff_of_false (by simp) h1⟩
  · exact ⟨_, rfl, rfl, rfl, rfl, iff_of_false (by simp) h1⟩
  · exact ⟨_, rfl, rfl, rfl, rfl, iff_of_false (by simp) h1⟩
  · rcases hA with h | h | h
    · exact absurd h h3
    · exact absurd h h4
    · exact absurd h h5

/-- The step record for access `i` carries the access index, the accessed
page, the memory contents after the access, and the pre-access hit test. -/
theorem steps_record (pages : List Nat) (fc : Nat) (algo : String)
    (hA : recognized algo) {i : Nat} (hi : i < pages.length) :
    ∃ r : Step, (computeSteps pages fc algo).steps[i]? = some r ∧
      r.index = i ∧ r.page = pages.getD i 0 ∧
      r.memory = (stateAt pages fc algo (i + 1)).memory ∧
      (r.hit = true ↔ pages.getD i 0 ∈ (stateAt pages fc algo i).memory) := by
  obtain ⟨r, hget, hsnoc⟩ := record_at pages fc algo hA hi
  obtain ⟨r', hsnoc', hidx, hpage, hmem, hhit⟩ :=
    @procOne_record_core pages fc algo i
      (pages.getD i 0) (stateAt pages fc algo i) hA
  rw [stateAt_succ pages fc algo hi] at hsnoc
  rw [hsnoc'] at hsnoc
  have hrr : r' = r := by
    have := List.append_cancel_left hsnoc
    simpa using this
  subst hrr
  refine ⟨r', hget, hidx, hpage, ?_, hhit⟩
  rw [hmem, stateAt_succ pages fc algo hi]

/-! ## Claim C5 -/

/-- C5: for every run and position `i`, the step record at `i` has
`hit = true` iff the accessed page is an entry of the frame snapshot recorded
at step `i-1` (the state memory after access `i-1`), or a member of the
initial empty frame set when `i = 0`; the hit test is evaluated against the
frame contents before access `i` modifies them. -/
theorem hit_iff_in_previous_snapshot (pages : List Nat) (fc : Nat) (algo : String)
    (hA : recognized algo) {i : Nat} (hi : i < pages.length) :
    ∃ r : Step, (computeSteps pages fc algo).steps[i]? = some r ∧
      (r.hit = true ↔ pages.getD i 0 ∈ (stateAt pages fc algo i).memory) ∧
      (i = 0 → (stateAt pages fc algo i).memory = []) ∧
      (∀ j, i = j + 1 → ∃ rp : Step,
        (computeSteps pages fc algo).steps[j]? = some rp ∧
        rp.memory = (stateAt pages fc algo i).memory) := by
  obtain ⟨r, hget, -, -, -, hhit⟩ := steps_record pages fc algo hA hi
  refine ⟨r, hget, hhit, ?_, ?_⟩
  · intro h0
    subst h0
    rw [stateAt_zero]
    rfl
  · intro j hj
    subst hj
    obtain ⟨rp, hgetp, -, -, hmemp, -⟩ := steps_record pages fc algo hA (by omega : j < pages.length)
    exact ⟨rp, hgetp, hmemp⟩

theorem hit_iff_in_previous_snapshot_witness :
    ∃ r : Step, (computeSteps [2, 2] 1 "fifo").steps[1]? = some r ∧
      (r.hit = true ↔ [2, 2].getD 1 0 ∈ (stateAt [2, 2] 1 "fifo" 1).memory) ∧
      ((1 : Nat) = 0 → (stateAt [2, 2] 1 "fifo" 1).memory = []) ∧
      (∀ j, (1 : Nat) = j + 1 → ∃ rp : Step,
        (computeSteps [2, 2] 1 "fifo").steps[j]? = some rp ∧
        rp.memory = (stateAt [2, 2] 1 "fifo" 1).memory) :=
  hit_iff_in_previous_snapshot [2, 2] 1 "fifo" (by decide) (by decide)

/-! ## Characterization of the Optimal victim scan -/

theorem jsIndexOf_ge_neg_one (l : List Nat) (x : Nat) : -1 ≤ jsIndexOf l x := by
  unfold jsIndexOf
  rcases h : l.findIdx? (fun y => y = x) with _ | k
  · change (-1 : Int) ≤ -1
    omega
  · change (-1 : Int) ≤ (k : Int)
    omega

theorem nextUseO_none {future : List Nat} {m : Nat} (h : nextUseI future m = -1) :
    nextUseO future m = none := by
  show (if nextUseI future m = -1 then none else some (nextUseI future m)) = none
  rw [if_pos h]

theorem nextUseO_some {future : List Nat} {m : Nat} (h : ¬ nextUseI future m = -1) :
    nextUseO future m = some (nextUseI future m) := by
  show (if nextUseI future m = -1 then none else some (nextUseI future m))
    = some (nextUseI future m)
  rw [if_neg h]

theorem optScanStep_inf {future : List Nat} {m : Nat} (acc : Option Nat × Option Int)
    (h : nextUseI future m = -1) : optScanStep future acc m = (some m, none) := by
  show (if nextUseI future m = -1 then ((some m, none) : Option Nat × Option Int)
    else match acc.2 with
      | none => acc
      | some f => if nextUseI future m > f then (some m, some (nextUseI future m)) else acc)
    = (some m, none)
  rw [if_pos h]

theorem optScanStep_skip {future : List Nat} {m : Nat} {w : Option Nat}
    (h : ¬ nextUseI future m = -1) :
    optScanStep future (w, none) m = (w, none) := by
  show (if nextUseI future m = -1 then ((some m, none) : Option Nat × Option Int)
    else (w, none)) = (w, none)
  rw [if_neg h]

theorem optScanStep_take {future : List Nat} {m : Nat} {w : Option Nat} {f : Int}
    (h : ¬ nextUseI future m = -1) (hgt : nextUseI future m > f) :
    optScanStep future (w, some f) m = (some m, some (nextUseI future m)) := by
  show (if nextUseI future m = -1 then ((some m, none) : Option Nat × Option Int)
    else if nextUseI future m > f then (some m, some (nextUseI future m)) else (w, some f))
    = (some m, some (nextUseI future m))
  rw [if_neg h, if_pos hgt]

theorem optScanStep_keep {future : List Nat} {m : Nat} {w : Option Nat} {f : Int}
    (h : ¬ nextUseI future m = -1) (hgt : ¬ nextUseI future m > f) :
    optScanStep future (w, some f) m = (w, some f) := by
  show (if nextUseI future m = -1 then ((some m, none) : Option Nat × Option Int)
    else if nextUseI future m > f then (some m, some (nextUseI future m)) else (w, some f))
    = (w, some f)
  rw [if_neg h, if_neg hgt]

theorem optScan_append (future l : List Nat) (a : Nat) :
    optScan future (l ++ [a]) = optScanStep future (optScan future l) a := by
  simp [optScan, List.foldl_append]

/-- The Optimal scan returns a victim whose next use is maximal (`none` =
never used again = `+Infinity`), and when at least one resident page is
never used again, the victim is the **last** such page in display order. -/
theorem optScan_spec (future : List Nat) (memory : List Nat) (hne : memory ≠ []) :
    ∃ v, optScan future memory = (some v, nextUseO future v) ∧ v ∈ memory ∧
      (∀ q ∈ memory, leNUb (nextUseO future q) (nextUseO future v) = true) ∧
      ((memory.filter (fun m => (nextUseO future m).isNone)) ≠ [] →
        (memory.filter (fun m => (nextUseO future m).isNone)).getLast? = some v) := by
  induction memory using List.reverseRecOn with
  | nil => exact absurd rfl hne
  | append_singleton l a ih =>
    rw [optScan_append]
    rcases List.eq_nil_or_concat l with hl | ⟨l', a', hl⟩
    · subst hl
      simp only [List.nil_append]
      have hbase : optScan future [] = (none, some (-1)) := rfl
      rw [hbase]
      by_cases hnu : nextUseI future a = -1
      · rw [optScanStep_inf _ hnu]
        refine ⟨a, by rw [nextUseO_none hnu], by simp, ?_, ?_⟩
        · intro q hq
          rw [List.mem_singleton] at hq
          subst hq
          rw [nextUseO_none hnu]
          rfl
        · intro _
          have : (List.filter (fun m => (nextUseO future m).isNone) [a]) = [a] := by
            simp [List.filter, nextUseO_none hnu]
          rw [this]
          rfl
      · have hgt : nextUseI future a > -1 := by
          have := jsIndexOf_ge_neg_one future a
          unfold nextUseI
          unfold nextUseI at hnu
          omega
        rw [optScanStep_take hnu hgt]
        refine ⟨a, by rw [nextUseO_some hnu], by simp, ?_, ?_⟩
        · intro q hq
          rw [List.mem_singleton] at hq
          subst hq
          simp [leNUb, nextUseO_some hnu]
        · intro hcon
          exact absurd (by simp [List.filter, nextUseO_some hnu]) hcon
    · have hlne : l ≠ [] := by subst hl; simp
      obtain ⟨v, hacc, hvmem, hmax, hinf⟩ := ih hlne
      rw [hacc]
      by_cases hnu : nextUseI future a = -1
      · rw [optScanStep_inf _ hnu]
        refine ⟨a, by rw [nextUseO_none hnu], by simp, ?_, ?_⟩
        · intro q _
          rw [nextUseO_none hnu]
          cases nextUseO future q <;> rfl
        · intro _
          rw [List.filter_append]
          have : (List.filter (fun m => (nextUseO future m).isNone) [a]) = [a] := by
            simp [List.filter, nextUseO_none hnu]
          rw [this, List.getLast?_concat]
      · have hfilta : (List.filter (fun m => (nextUseO future m).isNone) [a]) = [] := by
          simp [List.filter, nextUseO_some hnu]
        rcases hv : nextUseO future v with _ | f
        · -- farthest is already Infinity: accumulator unchanged
          rw [optScanStep_skip hnu]
          refine ⟨v, by rw [hv], List.mem_append_left _ hvmem, ?_, ?_⟩
          · intro q hq
            rw [hv]
            rcases List.mem_append.mp hq with h | h
            · have := hmax q h
              rwa [hv] at this
            · rw [List.mem_singleton] at h
              subst h
              rw [nextUseO_some hnu]
              rfl
          · intro _
            rw [List.filter_append, hfilta, List.append_nil]
            apply hinf
            intro hcon
            have : v ∈ List.filter (fun m => (nextUseO future m).isNone) l := by
              rw [List.mem_filter]
              exact ⟨hvmem, by rw [hv]; rfl⟩
            rw [hcon] at this
            exact absurd this (List.not_mem_nil v)
        · -- farthest is finite
          have hnofinf : List.filter (fun m => (nextUseO future m).isNone) l = [] := by
            rcases hcon : List.filter (fun m => (nextUseO future m).isNone) l with _ | ⟨m, rest⟩
            · rfl
            · have hm : m ∈ List.filter (fun m => (nextUseO future m).isNone) l := by
                rw [hcon]; exact List.mem_cons_self m rest
              rw [List.mem_filter] at hm
              have hle := hmax m hm.1
              rw [hv] at hle
              have hmn : nextUseO future m = none := by
                rcases hmm : nextUseO future m with _ | _
                · rfl
                · rw [hmm] at hm; simp at hm
              rw [hmn] at hle
              exact absurd hle (by simp [leNUb])
          have hfiltall :
              List.filter (fun m => (nextUseO future m).isNone) (l ++ [a]) = [] := by
            rw [List.filter_append, hnofinf, hfilta]
            rfl
          by_cases hgt : nextUseI future a > f
          · rw [optScanStep_take hnu hgt]
            refine ⟨a, by rw [nextUseO_some hnu], by simp,
              ?_, fun hcon => absurd hfiltall hcon⟩
            intro q hq
            rcases List.mem_append.mp hq with h | h
            · have hq' := hmax q h
              rw [hv] at hq'
              rcases hqq : nextUseO future q with _ | g
              · rw [hqq] at hq'
                exact absurd hq' (by simp [leNUb])
              · rw [hqq] at hq'
                simp only [leNUb, decide_eq_true_eq] at hq'
                rw [nextUseO_some hnu]
                simp only [leNUb, decide_eq_true_eq]
                omega
            · rw [List.mem_singleton] at h
              subst h
              rw [nextUseO_some hnu]
              simp [leNUb]
          · rw [optScanStep_keep hnu hgt]
            refine ⟨v, by rw [hv], List.mem_append_left _ hvmem, ?_,
              fun hcon => absurd hfiltall hcon⟩
            intro q hq
            rcases List.mem_append.mp hq with h | h
            · exact hmax q h
            · rw [List.mem_singleton] at h
              subst h
              rw [nextUseO_some hnu, hv]
              simp only [leNUb, decide_eq_true_eq]
              omega

/-! ## Basic lemmas about the JS array primitives -/

theorem jsIndexOf_eq_neg_one_iff (l : List Nat) (x : Nat) :
    jsIndexOf l x = -1 ↔ x ∉ l := by
  unfold jsIndexOf
  rcases h : l.findIdx? (fun y => y = x) with _ | k
  · rw [List.findIdx?_eq_none_iff] at h
    exact iff_of_true rfl (fun hx => by simpa using h x hx)
  · rw [List.findIdx?_eq_some_iff_getElem] at h
    obtain ⟨hk, hpk, -⟩ := h
    simp only [decide_eq_true_eq] at hpk
    refine iff_of_false (fun hc => ?_) (fun hns => hns (hpk ▸ List.getElem_mem hk))
    change (k : Int) = -1 at hc
    omega

theorem jsIndexOf_nonneg {l : List Nat} {x : Nat} (h : x ∈ l) :
    0 ≤ jsIndexOf l x := by
  by_contra hlt
  push_neg at hlt
  unfold jsIndexOf at hlt
  rcases hf : l.findIdx? (fun y => y = x) with _ | k
  · rw [List.findIdx?_eq_none_iff] at hf
    simpa using hf x h
  · rw [hf] at hlt
    change (k : Int) < 0 at hlt
    omega

theorem jsIndexOf_spec {l : List Nat} {x : Nat} (h : x ∈ l) :
    ∃ k : Nat, jsIndexOf l x = (k : Int) ∧ k < l.length ∧ l.getD k 0 = x ∧
      ∀ j, j < k → l.getD j 0 ≠ x := by
  unfold jsIndexOf
  rcases hf : l.findIdx? (fun y => y = x) with _ | k
  · rw [List.findIdx?_eq_none_iff] at hf
    have := hf x h
    simp at this
  · rw [List.findIdx?_eq_some_iff_getElem] at hf
    obtain ⟨hk, hpk, hmin⟩ := hf
    refine ⟨k, rfl, hk, ?_, ?_⟩
    · simp only [decide_eq_true_eq] at hpk
      simp [List.getD_eq_getElem?_getD, List.getElem?_eq_getElem hk, hpk]
    · intro j hj hcon
      have hjl : j < l.length := Nat.lt_trans hj hk
      have := hmin j hj
      simp only [decide_eq_true_eq] at this
      apply this
      simpa [List.getD_eq_getElem?_getD, List.getElem?_eq_getElem hjl] using hcon

/-! ## Claim C4 -/

/-- C4: on a fault with all frames full under the optimal algorithm,
`computeSteps` evicts the resident page with the largest next-use index
(`none` = never reappears = `+Infinity`); among several never-reappearing
candidates the **last** one scanned in display order wins; and it never
evicts a page whose finite next use is sooner than another resident
candidate's finite next use. -/
theorem optimal_evicts_farthest_next_use (pages : List Nat) (fc : Nat)
    (hC : 1 ≤ fc) {i : Nat} (hi : i < pages.length)
    (hfault : pages.getD i 0 ∉ (stateAt pages fc "optimal" i).memory)
    (hfull : ¬ (stateAt pages fc "optimal" i).memory.length < fc) :
    ∃ v : Nat,
      (optScan (pages.drop (i + 1)) (stateAt pages fc "optimal" i).memory).1 = some v ∧
      v ∈ (stateAt pages fc "optimal" i).memory ∧
      (∀ q ∈ (stateAt pages fc "optimal" i).memory,
        leNUb (nextUseO (pages.drop (i + 1)) q) (nextUseO (pages.drop (i + 1)) v) = true) ∧
      (((stateAt pages fc "optimal" i).memory.filter
          (fun m => (nextUseO (pages.drop (i + 1)) m).isNone)) ≠ [] →
        ((stateAt pages fc "optimal" i).memory.filter
          (fun m => (nextUseO (pages.drop (i + 1)) m).isNone)).getLast? = some v) ∧
      (∀ q ∈ (stateAt pages fc "optimal" i).memory, ∀ nv nq : Int,
        nextUseO (pages.drop (i + 1)) v = some nv →
        nextUseO (pages.drop (i + 1)) q = some nq → nq ≤ nv) ∧
      (stateAt pages fc "optimal" (i + 1)).memory =
        spliceReplace (stateAt pages fc "optimal" i).memory
          (jsIndexOf (stateAt pages fc "optimal" i).memory v) (pages.getD i 0) := by
  have hne : (stateAt pages fc "optimal" i).memory ≠ [] := by
    intro hcon
    rw [hcon] at hfull
    simp at hfull
    omega
  obtain ⟨v, hscan, hvmem, hmax, hinf⟩ :=
    optScan_spec (pages.drop (i + 1)) (stateAt pages fc "optimal" i).memory hne
  have hv1 : (optScan (pages.drop (i + 1)) (stateAt pages fc "optimal" i).memory).1
      = some v := by rw [hscan]
  refine ⟨v, hv1, hvmem, hmax, hinf, ?_, ?_⟩
  · intro q hq nv nq hnv hnq
    have := hmax q hq
    rw [hnv, hnq] at this
    simpa [leNUb] using this
  · rw [stateAt_succ pages fc "optimal" hi,
      procOne_full_opt hfault hfull hv1]

theorem optimal_evicts_farthest_next_use_witness :
    ∃ v : Nat,
      (optScan ([1, 2, 3, 1].drop 2) (stateAt [1, 2, 3, 1] 1 "optimal" 1).memory).1 = some v ∧
      v ∈ (stateAt [1, 2, 3, 1] 1 "optimal" 1).memory ∧
      (∀ q ∈ (stateAt [1, 2, 3, 1] 1 "optimal" 1).memory,
        leNUb (nextUseO ([1, 2, 3, 1].drop 2) q) (nextUseO ([1, 2, 3, 1].drop 2) v) = true) ∧
      (((stateAt [1, 2, 3, 1] 1 "optimal" 1).memory.filter
          (fun m => (nextUseO ([1, 2, 3, 1].drop 2) m).isNone)) ≠ [] →
        ((stateAt [1, 2, 3, 1] 1 "optimal" 1).memory.filter
          (fun m => (nextUseO ([1, 2, 3, 1].drop 2) m).isNone)).getLast? = some v) ∧
      (∀ q ∈ (stateAt [1, 2, 3, 1] 1 "optimal" 1).memory, ∀ nv nq : Int,
        nextUseO ([1, 2, 3, 1].drop 2) v = some nv →
        nextUseO ([1, 2, 3, 1].drop 2) q = some nq → nq ≤ nv) ∧
      (stateAt [1, 2, 3, 1] 1 "optimal" 2).memory =
        spliceReplace (stateAt [1, 2, 3, 1] 1 "optimal" 1).memory
          (jsIndexOf (stateAt [1, 2, 3, 1] 1 "optimal" 1).memory v) ([1, 2, 3, 1].getD 1 0) :=
  optimal_evicts_farthest_next_use [1, 2, 3, 1] 1 (by decide) (by decide)
    (by decide) (by decide)

/-! ## Characterization of the LRU victim scan -/

theorem getD_append_left {l l' : List Nat} {j : Nat} (h : j < l.length) :
    (l ++ l').getD j 0 = l.getD j 0 := by
  simp [List.getD_eq_getElem?_getD, List.getElem?_append_left h]

theorem getD_concat_length {l : List Nat} {a : Nat} :
    (l ++ [a]).getD l.length 0 = a := by
  rw [List.getD_eq_getElem?_getD, List.getElem?_append_right (Nat.le_refl _)]
  simp

theorem lruScanStep_none {lu : LUMap} {p : Nat} {w : Option Nat} :
    lruScanStep lu (w, none) p = (some p, some (luVal lu p)) := rfl

theorem lruScanStep_lt {lu : LUMap} {p : Nat} {w : Option Nat} {oi : Int}
    (h : luVal lu p < oi) :
    lruScanStep lu (w, some oi) p = (some p, some (luVal lu p)) := by
  show (if luVal lu p < oi then ((some p, some (luVal lu p)) : Option Nat × Option Int)
    else (w, some oi)) = (some p, some (luVal lu p))
  rw [if_pos h]

theorem lruScanStep_ge {lu : LUMap} {p : Nat} {w : Option Nat} {oi : Int}
    (h : ¬ luVal lu p < oi) :
    lruScanStep lu (w, some oi) p = (w, some oi) := by
  show (if luVal lu p < oi then ((some p, some (luVal lu p)) : Option Nat × Option Int)
    else (w, some oi)) = (w, some oi)
  rw [if_neg h]

theorem lruScan_append (lu : LUMap) (l : List Nat) (a : Nat) :
    lruScan lu (l ++ [a]) = lruScanStep lu (lruScan lu l) a := by
  simp [lruScan, List.foldl_append]

/-- The LRU scan returns the first resident page (in display order) whose
`lastUsed` value is minimal. -/
theorem lruScan_spec (lu : LUMap) (memory : List Nat) (hne : memory ≠ []) :
    ∃ v k, lruScan lu memory = (some v, some (luVal lu v)) ∧ v ∈ memory ∧
      k < memory.length ∧ memory.getD k 0 = v ∧
      (∀ q ∈ memory, luVal lu v ≤ luVal lu q) ∧
      (∀ j, j < k → luVal lu v < luVal lu (memory.getD j 0)) := by
  induction memory using List.reverseRecOn with
  | nil => exact absurd rfl hne
  | append_singleton l a ih =>
    rw [lruScan_append]
    rcases List.eq_nil_or_concat l with hl | ⟨l', a', hl⟩
    · subst hl
      have hbase : lruScan lu [] = (none, none) := rfl
      rw [hbase, lruScanStep_none]
      refine ⟨a, 0, rfl, by simp, by simp, by simp, ?_, by omega⟩
      intro q hq
      simp only [List.nil_append, List.mem_singleton] at hq
      subst hq
      omega
    · have hlne : l ≠ [] := by subst hl; simp
      obtain ⟨v, k, hacc, hvmem, hk, hgetk, hmin, hfirst⟩ := ih hlne
      rw [hacc]
      by_cases hlt : luVal lu a < luVal lu v
      · rw [lruScanStep_lt hlt]
        refine ⟨a, l.length, rfl, by simp, by simp, getD_concat_length, ?_, ?_⟩
        · intro q hq
          rcases List.mem_append.mp hq with h | h
          · have := hmin q h
            omega
          · rw [List.mem_singleton] at h
            subst h
            omega
        · intro j hj
          rw [getD_append_left hj]
          have hj' : l.getD j 0 ∈ l := by
            rw [List.getD_eq_getElem?_getD, List.getElem?_eq_getElem hj]
            exact List.getElem_mem hj
          have := hmin _ hj'
          omega
      · rw [lruScanStep_ge hlt]
        refine ⟨v, k, rfl, List.mem_append_left _ hvmem, by simp; omega,
          by rw [getD_append_left hk]; exact hgetk, ?_, ?_⟩
        · intro q hq
          rcases List.mem_append.mp hq with h | h
          · exact hmin q h
          · rw [List.mem_singleton] at h
            subst h
            omega
        · intro j hj
          rw [getD_append_left (by omega : j < l.length)]
          exact hfirst j hj

/-! ## Memory invariant: no duplicates, length bounded by the capacity -/

theorem spliceReplace_def (l : List Nat) (start : Int) (v : Nat) :
    spliceReplace l start v =
      l.take (if start < 0 then l.length - (-start).toNat
        else min start.toNat l.length) ++ [v] ++
      l.drop ((if start < 0 then l.length - (-start).toNat
        else min start.toNat l.length) + 1) := rfl

theorem spliceReplace_neg_one {l : List Nat} (hne : l ≠ []) (v : Nat) :
    spliceReplace l (-1) v = l.take (l.length - 1) ++ [v] := by
  rw [spliceReplace_def]
  have hc : ((-1 : Int) < 0) := by omega
  have ht : (-(-1 : Int)).toNat = 1 := by omega
  rw [if_pos hc, ht]
  have hlen : 0 < l.length := List.length_pos.mpr hne
  rw [show l.length - 1 + 1 = l.length by omega, List.drop_length]
  simp

theorem length_spliceReplace_neg_one {l : List Nat} (hne : l ≠ []) (v : Nat) :
    (spliceReplace l (-1) v).length = l.length := by
  rw [spliceReplace_neg_one hne]
  have hlen : 0 < l.length := List.length_pos.mpr hne
  simp [List.length_take]
  omega

theorem nodup_spliceReplace_neg_one {l : List Nat} (hne : l ≠ []) {v : Nat}
    (hnd : l.Nodup) (hv : v ∉ l) :
    (spliceReplace l (-1) v).Nodup := by
  rw [spliceReplace_neg_one hne]
  rw [List.nodup_append]
  refine ⟨List.Sublist.nodup (List.take_sublist _ _) hnd, List.nodup_singleton v, ?_⟩
  intro q hq
  have : q ∈ l := List.take_subset _ _ hq
  simp only [List.mem_singleton]
  intro hcon
  subst hcon
  exact hv this

/-- Replacing at `jsIndexOf l x` (a valid index or `-1`) preserves length
and, when the new page is fresh, the no-duplicates property. -/
theorem splice_at_idx_nodup_len {l : List Nat} {x page : Nat}
    (hnd : l.Nodup) (hpage : page ∉ l) (hne : l ≠ []) :
    (spliceReplace l (jsIndexOf l x) page).Nodup ∧
    (spliceReplace l (jsIndexOf l x) page).length = l.length := by
  by_cases hx : x ∈ l
  · obtain ⟨k, hk_eq, hk_lt, -, -⟩ := jsIndexOf_spec hx
    rw [hk_eq]
    exact ⟨nodup_spliceReplace hnd page hpage, length_spliceReplace hk_lt page⟩
  · rw [(jsIndexOf_eq_neg_one_iff l x).mpr hx]
    exact ⟨nodup_spliceReplace_neg_one hne hnd hpage,
      length_spliceReplace_neg_one hne page⟩

theorem procOne_full_fifo_nil {pages : List Nat} {fc : Nat} {i page : Nat}
    {st : SimState}
    (h1 : page ∉ st.memory) (h2 : ¬ st.memory.length < fc)
    (hq : st.fifoQueue = []) :
    procOne pages fc "fifo" i page st =
      { memory := spliceReplace st.memory (-1) page
        fifoQueue := [page]
        lastUsed := setLU st.lastUsed page i
        result := st.result ++
          [⟨i, page, spliceReplace st.memory (-1) page, false, -1,
            "FIFO replaced undefined"⟩]
        faults := st.faults + 1
        hits := st.hits } := by
  unfold procOne
  rw [if_neg h1, if_neg h2, if_pos rfl, hq]
  rfl

/-- Throughout any run with capacity at least 1, the frame array has no
duplicate pages and never exceeds the capacity. -/
theorem stateAt_memory_inv (pages : List Nat) (fc : Nat) (algo : String)
    (hC : 1 ≤ fc) :
    ∀ k, (stateAt pages fc algo k).memory.Nodup ∧
      (stateAt pages fc algo k).memory.length ≤ fc := by
  intro k
  induction k with
  | zero =>
    rw [stateAt_zero]
    exact ⟨List.nodup_nil, by simpa [initState] using hC⟩
  | succ m ih =>
    by_cases hm : m < pages.length
    · rw [stateAt_succ pages fc algo hm]
      by_cases hmem : pages.getD m 0 ∈ (stateAt pages fc algo m).memory
      · rw [procOne_hit hmem]
        exact ih
      · by_cases hfree : (stateAt pages fc algo m).memory.length < fc
        · rw [procOne_free hmem hfree]
          constructor
          · rw [List.nodup_append]
            refine ⟨ih.1, List.nodup_singleton _, ?_⟩
            intro q hq
            simp only [List.mem_singleton]
            intro hcon
            subst hcon
            exact hmem hq
          · simp only [List.length_append, List.length_singleton]
            omega
        · have hne : (stateAt pages fc algo m).memory ≠ [] := by
            intro hcon
            rw [hcon] at hfree
            simp at hfree
            omega
          by_cases hf : algo = "fifo"
          · subst hf
            rcases hq : (stateAt pages fc "fifo" m).fifoQueue with _ | ⟨old, qtail⟩
            · rw [procOne_full_fifo_nil hmem hfree hq]
              exact ⟨nodup_spliceReplace_neg_one hne ih.1 hmem,
                by rw [length_spliceReplace_neg_one hne]; exact ih.2⟩
            · rw [procOne_full_fifo hmem hfree hq]
              have h := @splice_at_idx_nodup_len _ old _ ih.1 hmem hne
              exact ⟨h.1, by rw [h.2]; exact ih.2⟩
          · by_cases hl : algo = "lru"
            · subst hl
              obtain ⟨v, kk, hacc, hvmem, -, -, -, -⟩ :=
                lruScan_spec (stateAt pages fc "lru" m).lastUsed _ hne
              have hv1 : (lruScan (stateAt pages fc "lru" m).lastUsed
                  (stateAt pages fc "lru" m).memory).1 = some v := by rw [hacc]
              rw [procOne_full_lru hmem hfree hv1]
              have h := @splice_at_idx_nodup_len _ v _ ih.1 hmem hne
              exact ⟨h.1, by rw [h.2]; exact ih.2⟩
            · by_cases ho : algo = "optimal"
              · subst ho
                obtain ⟨v, hacc, hvmem, -, -⟩ :=
                  optScan_spec (pages.drop (m + 1)) _ hne
                have hv1 : (optScan (pages.drop (m + 1))
                    (stateAt pages fc "optimal" m).memory).1 = some v := by rw [hacc]
                rw [procOne_full_opt hmem hfree hv1]
                have h := @splice_at_idx_nodup_len _ v _ ih.1 hmem hne
                exact ⟨h.1, by rw [h.2]; exact ih.2⟩
              · rw [procOne_full_unknown hmem hfree
                  (fun hA => by rcases hA with h | h | h <;> contradiction)]
                exact ih
    · rw [stateAt_of_ge pages fc algo (by omega : pages.length ≤ m + 1),
        ← stateAt_of_ge pages fc algo (by omega : pages.length ≤ m)]
      exact ih

/-! ## The `lastUsed` map: lookup after set/delete -/

theorem getLU_cons (k v : Nat) (tl : LUMap) (q : Nat) :
    getLU ((k, v) :: tl) q = if k = q then some v else getLU tl q := by
  unfold getLU
  by_cases hk : k = q
  · rw [List.find?_cons_of_pos _ (by simpa using hk), if_pos hk]
    rfl
  · rw [List.find?_cons_of_neg _ (by simpa using hk), if_neg hk]

theorem filter_ne_cons (k v : Nat) (tl : LUMap) (p : Nat) :
    List.filter (fun r => ¬ r.1 = p) ((k, v) :: tl) =
      if k = p then List.filter (fun r => ¬ r.1 = p) tl
      else (k, v) :: List.filter (fun r => ¬ r.1 = p) tl := by
  by_cases hk : k = p
  · rw [List.filter_cons_of_neg (by simpa using hk), if_pos hk]
  · rw [List.filter_cons_of_pos (by simpa using hk), if_neg hk]

theorem getLU_delLU (m : LUMap) (p q : Nat) :
    getLU (delLU m p) q = if q = p then none else getLU m q := by
  induction m with
  | nil => by_cases h : q = p <;> simp [delLU, getLU, h]
  | cons hd tl ih =>
    obtain ⟨k, v⟩ := hd
    unfold delLU at ih ⊢
    rw [filter_ne_cons]
    by_cases hk : k = p
    · rw [if_pos hk, ih, getLU_cons]
      by_cases hq : q = p
      · rw [if_pos hq, if_pos hq]
      · rw [if_neg hq, if_neg hq,
          if_neg (show ¬ k = q from fun hc => hq (by rw [← hc, hk]))]
    · rw [if_neg hk, getLU_cons, getLU_cons]
      by_cases hkq : k = q
      · rw [if_pos hkq, if_pos hkq,
          if_neg (show ¬ q = p from fun hc => hk (by rw [hkq, hc]))]
      · rw [if_neg hkq, if_neg hkq, ih]

theorem getLU_setLU (m : LUMap) (p v q : Nat) :
    getLU (setLU m p v) q = if q = p then some v else getLU m q := by
  unfold setLU
  rw [getLU_cons]
  by_cases hq : q = p
  · rw [if_pos hq.symm, if_pos hq]
  · rw [if_neg (fun hc => hq hc.symm), if_neg hq]
    have h2 := getLU_delLU m p q
    rw [if_neg hq] at h2
    exact h2

/-! ## The spec-side `lastUsed` and the map invariant of the LRU run -/

theorem jsLastIndexOf_concat (l : List Nat) (x q : Nat) :
    jsLastIndexOf (l ++ [x]) q =
      if q = x then (l.length : Int) else jsLastIndexOf l q := by
  unfold jsLastIndexOf
  rw [List.reverse_append]
  simp only [List.reverse_singleton, List.singleton_append, List.findIdx?_cons]
  by_cases hqx : q = x
  · rw [if_pos hqx]
    have : (decide (x = q)) = true := by simp [hqx]
    rw [this]
    simp
  · rw [if_neg hqx]
    have : (decide (x = q)) = false := by
      simp
      exact fun hcon => absurd hcon.symm hqx
    rw [this]
    simp only [Nat.zero_add, List.findIdx?_start_succ]
    rcases hf : l.reverse.findIdx? (fun y => y = q) with _ | k
    · simp
    · have hk : k < l.length := by
        rw [List.findIdx?_eq_some_iff_getElem] at hf
        obtain ⟨hk, -, -⟩ := hf
        simpa using hk
      have harith : ((l ++ [x]).length - 1 - (k + 1) : Nat) = l.length - 1 - k := by
        simp only [List.length_append, List.length_singleton]
        omega
      simp [harith]
      omega

theorem lastAccess_succ (pages : List Nat) {i : Nat} (hi : i < pages.length) (q : Nat) :
    lastAccess pages (i + 1) q =
      if q = pages.getD i 0 then (i : Int) else lastAccess pages i q := by
  unfold lastAccess
  have hg : pages.getD i 0 = pages[i] := by
    rw [List.getD_eq_getElem?_getD, List.getElem?_eq_getElem hi]; rfl
  rw [List.take_succ, List.getElem?_eq_getElem hi]
  simp only [Option.toList_some]
  rw [jsLastIndexOf_concat]
  rw [List.length_take, Nat.min_eq_left (Nat.le_of_lt hi), hg]

/-- Map invariant of the LRU run: every resident page's `lastUsed` entry is
exactly its last access position (hit or placement) before the current step. -/
theorem lru_map_inv (pages : List Nat) (fc : Nat) (hC : 1 ≤ fc) :
    ∀ k, k ≤ pages.length → ∀ p ∈ (stateAt pages fc "lru" k).memory,
      ∃ j : Nat, getLU (stateAt pages fc "lru" k).lastUsed p = some j ∧
        (j : Int) = lastAccess pages k p := by
  intro k
  induction k with
  | zero =>
    intro _ p hp
    rw [stateAt_zero] at hp
    exact absurd hp (List.not_mem_nil p)
  | succ m ih =>
    intro hm1 p hp
    have hm : m < pages.length := by omega
    have ihm := ih (by omega)
    rw [stateAt_succ pages fc "lru" hm] at hp ⊢
    by_cases hmem : pages.getD m 0 ∈ (stateAt pages fc "lru" m).memory
    · rw [procOne_hit hmem] at hp ⊢
      dsimp only at hp ⊢
      rw [getLU_setLU]
      by_cases hpq : p = pages.getD m 0
      · rw [if_pos hpq]
        refine ⟨m, rfl, ?_⟩
        rw [lastAccess_succ pages hm p, if_pos hpq]
      · rw [if_neg hpq]
        obtain ⟨j, hj1, hj2⟩ := ihm p hp
        exact ⟨j, hj1, by rw [lastAccess_succ pages hm p, if_neg hpq]; exact hj2⟩
    · by_cases hfree : (stateAt pages fc "lru" m).memory.length < fc
      · rw [procOne_free hmem hfree] at hp ⊢
        dsimp only at hp ⊢
        rw [getLU_setLU]
        by_cases hpq : p = pages.getD m 0
        · rw [if_pos hpq]
          refine ⟨m, rfl, ?_⟩
          rw [lastAccess_succ pages hm p, if_pos hpq]
        · rw [if_neg hpq]
          have hpmem : p ∈ (stateAt pages fc "lru" m).memory := by
            rcases List.mem_append.mp hp with h | h
            · exact h
            · rw [List.mem_singleton] at h
              exact absurd h hpq
          obtain ⟨j, hj1, hj2⟩ := ihm p hpmem
          exact ⟨j, hj1, by rw [lastAccess_succ pages hm p, if_neg hpq]; exact hj2⟩
      · have hne : (stateAt pages fc "lru" m).memory ≠ [] := by
          intro hcon
          rw [hcon] at hfree
          simp at hfree
          omega
        obtain ⟨v, kk, hacc, hvmem, hkk, hgetkk, -, -⟩ :=
          lruScan_spec (stateAt pages fc "lru" m).lastUsed _ hne
        have hv1 : (lruScan (stateAt pages fc "lru" m).lastUsed
            (stateAt pages fc "lru" m).memory).1 = some v := by rw [hacc]
        rw [procOne_full_lru hmem hfree hv1] at hp ⊢
        dsimp only at hp ⊢
        obtain ⟨kk2, hkk2_eq, hkk2_lt, hgetD, -⟩ := jsIndexOf_spec hvmem
        rw [hkk2_eq] at hp
        have hnd := (stateAt_memory_inv pages fc "lru" hC m).1
        rw [mem_spliceReplace_iff hnd hkk2_lt] at hp
        rcases hp with rfl | ⟨hpmem, hpne⟩
        · rw [getLU_setLU, if_pos rfl]
          exact ⟨m, rfl, by rw [lastAccess_succ pages hm _, if_pos rfl]⟩
        · have hpv : p ≠ v := by rw [← hgetD]; exact hpne
          have hppage : p ≠ pages.getD m 0 := fun hc => hmem (hc ▸ hpmem)
          rw [getLU_setLU, if_neg hppage, getLU_delLU, if_neg hpv]
          obtain ⟨j, hj1, hj2⟩ := ihm p hpmem
          exact ⟨j, hj1, by rw [lastAccess_succ pages hm p, if_neg hppage]; exact hj2⟩

theorem luVal_of_getLU {lu : LUMap} {q j : Nat} (h : getLU lu q = some j) :
    luVal lu q = (j : Int) := by
  unfold luVal
  rw [h]

theorem getD_mem {l : List Nat} {j : Nat} (hj : j < l.length) : l.getD j 0 ∈ l := by
  rw [List.getD_eq_getElem?_getD, List.getElem?_eq_getElem hj]
  exact List.getElem_mem hj

/-! ## Claim C3 -/

/-- C3: on a fault with all frames full under the LRU algorithm,
`computeSteps` evicts the resident page whose `lastUsed` value is smallest,
where `lastUsed(p)` is the largest index `j ≤ i-1` at which `p` was accessed
(`lastAccess`, `-1` when `p` has no recorded use), and a tie is broken in
favour of the first such page in display order (the victim sits at a display
position `k` strictly below which every page has a strictly larger
`lastUsed`). -/
theorem lru_evicts_least_recently_used (pages : List Nat) (fc : Nat)
    (hC : 1 ≤ fc) {i : Nat} (hi : i < pages.length)
    (hfault : pages.getD i 0 ∉ (stateAt pages fc "lru" i).memory)
    (hfull : ¬ (stateAt pages fc "lru" i).memory.length < fc) :
    ∃ v k : Nat,
      (lruScan (stateAt pages fc "lru" i).lastUsed
        (stateAt pages fc "lru" i).memory).1 = some v ∧
      v ∈ (stateAt pages fc "lru" i).memory ∧
      (∀ q ∈ (stateAt pages fc "lru" i).memory,
        lastAccess pages i v ≤ lastAccess pages i q) ∧
      k < (stateAt pages fc "lru" i).memory.length ∧
      (stateAt pages fc "lru" i).memory.getD k 0 = v ∧
      (∀ j, j < k →
        lastAccess pages i v < lastAccess pages i
          ((stateAt pages fc "lru" i).memory.getD j 0)) ∧
      (stateAt pages fc "lru" (i + 1)).memory =
        spliceReplace (stateAt pages fc "lru" i).memory
          (jsIndexOf (stateAt pages fc "lru" i).memory v) (pages.getD i 0) := by
  have hne : (stateAt pages fc "lru" i).memory ≠ [] := by
    intro hcon
    rw [hcon] at hfull
    simp at hfull
    omega
  obtain ⟨v, k, hacc, hvmem, hk, hgetk, hmin, hfirst⟩ :=
    lruScan_spec (stateAt pages fc "lru" i).lastUsed _ hne
  have hv1 : (lruScan (stateAt pages fc "lru" i).lastUsed
      (stateAt pages fc "lru" i).memory).1 = some v := by rw [hacc]
  have hval : ∀ q ∈ (stateAt pages fc "lru" i).memory,
      luVal (stateAt pages fc "lru" i).lastUsed q = lastAccess pages i q := by
    intro q hq
    obtain ⟨j, hj1, hj2⟩ := lru_map_inv pages fc hC i (by omega) q hq
    rw [luVal_of_getLU hj1, hj2]
  refine ⟨v, k, hv1, hvmem, ?_, hk, hgetk, ?_, ?_⟩
  · intro q hq
    have := hmin q hq
    rw [hval v hvmem, hval q hq] at this
    exact this
  · intro j hj
    have hjlt : j < (stateAt pages fc "lru" i).memory.length := by omega
    have := hfirst j hj
    rw [hval v hvmem, hval _ (getD_mem hjlt)] at this
    exact this
  · rw [stateAt_succ pages fc "lru" hi, procOne_full_lru hfault hfull hv1]

theorem lru_evicts_least_recently_used_witness :
    ∃ v k : Nat,
      (lruScan (stateAt [1, 2, 3] 1 "lru" 1).lastUsed
        (stateAt [1, 2, 3] 1 "lru" 1).memory).1 = some v ∧
      v ∈ (stateAt [1, 2, 3] 1 "lru" 1).memory ∧
      (∀ q ∈ (stateAt [1, 2, 3] 1 "lru" 1).memory,
        lastAccess [1, 2, 3] 1 v ≤ lastAccess [1, 2, 3] 1 q) ∧
      k < (stateAt [1, 2, 3] 1 "lru" 1).memory.length ∧
      (stateAt [1, 2, 3] 1 "lru" 1).memory.getD k 0 = v ∧
      (∀ j, j < k →
        lastAccess [1, 2, 3] 1 v < lastAccess [1, 2, 3] 1
          ((stateAt [1, 2, 3] 1 "lru" 1).memory.getD j 0)) ∧
      (stateAt [1, 2, 3] 1 "lru" 2).memory =
        spliceReplace (stateAt [1, 2, 3] 1 "lru" 1).memory
          (jsIndexOf (stateAt [1, 2, 3] 1 "lru" 1).memory v) ([1, 2, 3].getD 1 0) :=
  lru_evicts_least_recently_used [1, 2, 3] 1 (by decide) (by decide)
    (by decide) (by decide)

/-! ## Placement history for the FIFO run -/

theorem placedCond_false_of_hit {pages : List Nat} {fc : Nat} {algo : String}
    {n : Nat} (hmem : pages.getD n 0 ∈ (stateAt pages fc algo n).memory) (p : Nat) :
    placedCond pages fc algo n p = false := by
  unfold placedCond
  have h2 : decide (pages.getD n 0 ∉ (stateAt pages fc algo n).memory) = false :=
    decide_eq_false (not_not_intro hmem)
  rw [h2, Bool.and_false]

theorem placedCond_false_of_ne {pages : List Nat} {fc : Nat} {algo : String}
    {n p : Nat} (hne : ¬ pages.getD n 0 = p) :
    placedCond pages fc algo n p = false := by
  unfold placedCond
  have h1 : (pages.getD n 0 == p) = false := by
    rw [beq_eq_false_iff_ne]
    exact hne
  rw [h1, Bool.false_and]

theorem placedCond_true_of_fault {pages : List Nat} {fc : Nat} {algo : String}
    {n : Nat} (hmem : pages.getD n 0 ∉ (stateAt pages fc algo n).memory) :
    placedCond pages fc algo n (pages.getD n 0) = true := by
  unfold placedCond
  have h1 : (pages.getD n 0 == pages.getD n 0) = true := by
    rw [beq_iff_eq]
  have h2 : decide (pages.getD n 0 ∉ (stateAt pages fc algo n).memory) = true :=
    decide_eq_true hmem
  rw [h1, h2]
  rfl

theorem lastPlacedIdx_succ_of_not {pages : List Nat} {fc : Nat} {algo : String}
    {n p : Nat} (h : placedCond pages fc algo n p = false) :
    lastPlacedIdx pages fc algo (n + 1) p = lastPlacedIdx pages fc algo n p := by
  unfold lastPlacedIdx
  rw [List.range_succ, List.filter_append]
  have : List.filter (fun k => placedCond pages fc algo k p) [n] = [] := by
    simp [List.filter, h]
  rw [this, List.append_nil]

theorem lastPlacedIdx_succ_of_placed {pages : List Nat} {fc : Nat} {algo : String}
    {n p : Nat} (h : placedCond pages fc algo n p = true) :
    lastPlacedIdx pages fc algo (n + 1) p = some n := by
  unfold lastPlacedIdx
  rw [List.range_succ, List.filter_append]
  have : List.filter (fun k => placedCond pages fc algo k p) [n] = [n] := by
    simp [List.filter, h]
  rw [this, List.getLast?_concat]

theorem fifo_inv (pages : List Nat) (fc : Nat) (hC : 1 ≤ fc) :
    ∀ n, n ≤ pages.length → FifoQueueInv pages fc n := by
  intro n
  induction n with
  | zero =>
    intro _
    unfold FifoQueueInv
    rw [stateAt_zero]
    exact ⟨fun q => Iff.rfl, List.nodup_nil,
      fun q hq => absurd hq (List.not_mem_nil q), List.Pairwise.nil⟩
  | succ m ih =>
    intro hm1
    have hm : m < pages.length := by omega
    obtain ⟨imem, ind, ipl, isort⟩ := ih (by omega)
    unfold FifoQueueInv
    rw [stateAt_succ pages fc "fifo" hm]
    by_cases hmem : pages.getD m 0 ∈ (stateAt pages fc "fifo" m).memory
    · rw [procOne_hit hmem]
      dsimp only
      have hlp : ∀ p, lastPlacedIdx pages fc "fifo" (m + 1) p
          = lastPlacedIdx pages fc "fifo" m p :=
        fun p => lastPlacedIdx_succ_of_not (placedCond_false_of_hit hmem p)
      refine ⟨imem, ind, ?_, ?_⟩
      · intro q hq
        obtain ⟨j, hj, hjm⟩ := ipl q hq
        exact ⟨j, by rw [hlp]; exact hj, by omega⟩
      · exact List.Pairwise.imp_of_mem
          (fun {a b} _ _ hab ja jb hja hjb =>
            hab ja jb (by rw [hlp a] at hja; exact hja)
              (by rw [hlp b] at hjb; exact hjb)) isort
    · have hpage_nqueue : pages.getD m 0 ∉ (stateAt pages fc "fifo" m).fifoQueue :=
        fun hq => hmem ((imem _).mpr hq)
      have hlp_ne : ∀ p, p ≠ pages.getD m 0 →
          lastPlacedIdx pages fc "fifo" (m + 1) p = lastPlacedIdx pages fc "fifo" m p :=
        fun p hp => lastPlacedIdx_succ_of_not
          (placedCond_false_of_ne (fun hc => hp hc.symm))
      have hlp_page : lastPlacedIdx pages fc "fifo" (m + 1) (pages.getD m 0) = some m :=
        lastPlacedIdx_succ_of_placed (placedCond_true_of_fault hmem)
      by_cases hfree : (stateAt pages fc "fifo" m).memory.length < fc
      · rw [procOne_free hmem hfree]
        dsimp only
        refine ⟨?_, ?_, ?_, ?_⟩
        · intro q
          rw [List.mem_append, List.mem_append, imem q]
        · rw [List.nodup_append]
          refine ⟨ind, List.nodup_singleton _, ?_⟩
          intro q hq
          simp only [List.mem_singleton]
          intro hc
          subst hc
          exact hpage_nqueue hq
        · intro q hq
          rcases List.mem_append.mp hq with h | h
          · have hqne : q ≠ pages.getD m 0 := fun hc => hpage_nqueue (hc ▸ h)
            obtain ⟨j, hj, hjm⟩ := ipl q h
            exact ⟨j, by rw [hlp_ne q hqne]; exact hj, by omega⟩
          · rw [List.mem_singleton] at h
            subst h
            exact ⟨m, hlp_page, by omega⟩
        · rw [List.pairwise_append]
          refine ⟨?_, List.pairwise_singleton _ _, ?_⟩
          · exact List.Pairwise.imp_of_mem
              (fun {a b} ha hb hab ja jb hja hjb => by
                have hane : a ≠ pages.getD m 0 := fun hc => hpage_nqueue (hc ▸ ha)
                have hbne : b ≠ pages.getD m 0 := fun hc => hpage_nqueue (hc ▸ hb)
                rw [hlp_ne a hane] at hja
                rw [hlp_ne b hbne] at hjb
                exact hab ja jb hja hjb) isort
          · intro a ha b hb
            rw [List.mem_singleton] at hb
            subst hb
            intro ja jb hja hjb
            have hane : a ≠ pages.getD m 0 := fun hc => hpage_nqueue (hc ▸ ha)
            rw [hlp_ne a hane] at hja
            obtain ⟨j, hj, hjm⟩ := ipl a ha
            rw [hlp_page] at hjb
            have hjb' : jb = m := (Option.some.inj hjb).symm
            have hja' : ja = j := by
              rw [hj] at hja
              exact (Option.some.inj hja).symm
            omega
      · have hne : (stateAt pages fc "fifo" m).memory ≠ [] := by
          intro hcon
          rw [hcon] at hfree
          simp at hfree
          omega
        have hqne : (stateAt pages fc "fifo" m).fifoQueue ≠ [] := by
          obtain ⟨q0, hq0⟩ := List.exists_mem_of_ne_nil _ hne
          intro hcon
          have hq0' := (imem q0).mp hq0
          rw [hcon] at hq0'
          exact absurd hq0' (List.not_mem_nil q0)
        obtain ⟨old, qtail, hq⟩ := List.exists_cons_of_ne_nil hqne
        rw [procOne_full_fifo hmem hfree hq]
        dsimp only
        have hold_queue : old ∈ (stateAt pages fc "fifo" m).fifoQueue := by
          rw [hq]
          exact List.mem_cons_self _ _
        have hold_mem : old ∈ (stateAt pages fc "fifo" m).memory := (imem old).mpr hold_queue
        obtain ⟨kk, hkk_eq, hkk_lt, hgetD, -⟩ := jsIndexOf_spec hold_mem
        have hnd_mem := (stateAt_memory_inv pages fc "fifo" hC m).1
        have hold_ntail : old ∉ qtail := by
          have hnd := ind
          rw [hq, List.nodup_cons] at hnd
          exact hnd.1
        have htail_nd : qtail.Nodup := by
          have hnd := ind
          rw [hq, List.nodup_cons] at hnd
          exact hnd.2
        have hpage_ntail : pages.getD m 0 ∉ qtail := by
          intro hc
          apply hpage_nqueue
          rw [hq]
          exact List.mem_cons_of_mem _ hc
        refine ⟨?_, ?_, ?_, ?_⟩
        · intro q
          rw [hkk_eq, mem_spliceReplace_iff hnd_mem hkk_lt, hgetD,
            List.mem_append, List.mem_singleton]
          constructor
          · rintro (rfl | ⟨hql, hne_old⟩)
            · exact Or.inr rfl
            · left
              have := (imem q).mp hql
              rw [hq, List.mem_cons] at this
              rcases this with h | h
              · exact absurd h hne_old
              · exact h
          · rintro (h | rfl)
            · right
              constructor
              · exact (imem q).mpr (by rw [hq]; exact List.mem_cons_of_mem _ h)
              · intro hc
                subst hc
                exact hold_ntail h
            · exact Or.inl rfl
        · rw [List.nodup_append]
          refine ⟨htail_nd, List.nodup_singleton _, ?_⟩
          intro q hqq
          simp only [List.mem_singleton]
          intro hc
          subst hc
          exact hpage_ntail hqq
        · intro q hqq
          rcases List.mem_append.mp hqq with h | h
          · have hqne2 : q ≠ pages.getD m 0 := fun hc => hpage_ntail (hc ▸ h)
            obtain ⟨j, hj, hjm⟩ := ipl q (by rw [hq]; exact List.mem_cons_of_mem _ h)
            exact ⟨j, by rw [hlp_ne q hqne2]; exact hj, by omega⟩
          · rw [List.mem_singleton] at h
            subst h
            exact ⟨m, hlp_page, by omega⟩
        · rw [List.pairwise_append]
          refine ⟨?_, List.pairwise_singleton _ _, ?_⟩
          · have htail_sort : qtail.Pairwise (fun a b =>
                ∀ ja jb, lastPlacedIdx pages fc "fifo" m a = some ja →
                  lastPlacedIdx pages fc "fifo" m b = some jb → ja < jb) := by
              have hs := isort
              rw [hq, List.pairwise_cons] at hs
              exact hs.2
            exact List.Pairwise.imp_of_mem
              (fun {a b} ha hb hab ja jb hja hjb => by
                have hane : a ≠ pages.getD m 0 := fun hc => hpage_ntail (hc ▸ ha)
                have hbne : b ≠ pages.getD m 0 := fun hc => hpage_ntail (hc ▸ hb)
                rw [hlp_ne a hane] at hja
                rw [hlp_ne b hbne] at hjb
                exact hab ja jb hja hjb) htail_sort
          · intro a ha b hb
            rw [List.mem_singleton] at hb
            subst hb
            intro ja jb hja hjb
            have hane : a ≠ pages.getD m 0 := fun hc => hpage_ntail (hc ▸ ha)
            rw [hlp_ne a hane] at hja
            obtain ⟨j, hj, hjm⟩ := ipl a (by rw [hq]; exact List.mem_cons_of_mem _ ha)
            rw [hlp_page] at hjb
            have hjb' : jb = m := (Option.some.inj hjb).symm
            have hja' : ja = j := by
              rw [hj] at hja
              exact (Option.some.inj hja).symm
            omega

/-! ## Claim C2 -/

/-- C2: on a fault with all frames full under FIFO, `computeSteps` evicts
the page at the head of the explicit arrival queue, which is the resident
page that has been resident longest: its (last) placement position is no
later than that of any other resident page — so a page placed more recently
than another still-resident page is never evicted. -/
theorem fifo_evicts_longest_resident (pages : List Nat) (fc : Nat)
    (hC : 1 ≤ fc) {i : Nat} (hi : i < pages.length)
    (hfault : pages.getD i 0 ∉ (stateAt pages fc "fifo" i).memory)
    (hfull : ¬ (stateAt pages fc "fifo" i).memory.length < fc) :
    ∃ old : Nat, ∃ qtail : List Nat,
      (stateAt pages fc "fifo" i).fifoQueue = old :: qtail ∧
      old ∈ (stateAt pages fc "fifo" i).memory ∧
      (∀ q ∈ (stateAt pages fc "fifo" i).memory, ∃ jo jq : Nat,
        lastPlacedIdx pages fc "fifo" i old = some jo ∧
        lastPlacedIdx pages fc "fifo" i q = some jq ∧ jo ≤ jq) ∧
      (stateAt pages fc "fifo" (i + 1)).memory =
        spliceReplace (stateAt pages fc "fifo" i).memory
          (jsIndexOf (stateAt pages fc "fifo" i).memory old) (pages.getD i 0) := by
  obtain ⟨imem, ind, ipl, isort⟩ := fifo_inv pages fc hC i (by omega)
  have hne : (stateAt pages fc "fifo" i).memory ≠ [] := by
    intro hcon
    rw [hcon] at hfull
    simp at hfull
    omega
  have hqne : (stateAt pages fc "fifo" i).fifoQueue ≠ [] := by
    obtain ⟨q0, hq0⟩ := List.exists_mem_of_ne_nil _ hne
    intro hcon
    have hq0' := (imem q0).mp hq0
    rw [hcon] at hq0'
    exact absurd hq0' (List.not_mem_nil q0)
  obtain ⟨old, qtail, hq⟩ := List.exists_cons_of_ne_nil hqne
  have hold_queue : old ∈ (stateAt pages fc "fifo" i).fifoQueue := by
    rw [hq]
    exact List.mem_cons_self _ _
  have hold_mem : old ∈ (stateAt pages fc "fifo" i).memory := (imem old).mpr hold_queue
  obtain ⟨jo, hjo, -⟩ := ipl old hold_queue
  have hhead : ∀ b ∈ qtail, ∀ ja jb,
      lastPlacedIdx pages fc "fifo" i old = some ja →
      lastPlacedIdx pages fc "fifo" i b = some jb → ja < jb := by
    have hs := isort
    rw [hq, List.pairwise_cons] at hs
    exact hs.1
  refine ⟨old, qtail, hq, hold_mem, ?_, ?_⟩
  · intro q hqmem
    have hq_queue := (imem q).mp hqmem
    rw [hq, List.mem_cons] at hq_queue
    rcases hq_queue with rfl | h
    · exact ⟨jo, jo, hjo, hjo, Nat.le_refl jo⟩
    · obtain ⟨jq, hjq, -⟩ := ipl q (by rw [hq]; exact List.mem_cons_of_mem _ h)
      exact ⟨jo, jq, hjo, hjq, Nat.le_of_lt (hhead q h jo jq hjo hjq)⟩
  · rw [stateAt_succ pages fc "fifo" hi, procOne_full_fifo hfault hfull hq]

theorem fifo_evicts_longest_resident_witness :
    ∃ old : Nat, ∃ qtail : List Nat,
      (stateAt [1, 2, 3] 1 "fifo" 1).fifoQueue = old :: qtail ∧
      old ∈ (stateAt [1, 2, 3] 1 "fifo" 1).memory ∧
      (∀ q ∈ (stateAt [1, 2, 3] 1 "fifo" 1).memory, ∃ jo jq : Nat,
        lastPlacedIdx [1, 2, 3] 1 "fifo" 1 old = some jo ∧
        lastPlacedIdx [1, 2, 3] 1 "fifo" 1 q = some jq ∧ jo ≤ jq) ∧
      (stateAt [1, 2, 3] 1 "fifo" 2).memory =
        spliceReplace (stateAt [1, 2, 3] 1 "fifo" 1).memory
          (jsIndexOf (stateAt [1, 2, 3] 1 "fifo" 1).memory old) ([1, 2, 3].getD 1 0) :=
  fifo_evicts_longest_resident [1, 2, 3] 1 (by decide) (by decide)
    (by decide) (by decide)

/-! ## The shape of a full-memory fault step -/

theorem full_fault_step (pages : List Nat) (fc : Nat) (algo : String)
    (hA : recognized algo) (hC : 1 ≤ fc) {i : Nat} (hi : i < pages.length)
    (hfault : pages.getD i 0 ∉ (stateAt pages fc algo i).memory)
    (hfull : ¬ (stateAt pages fc algo i).memory.length < fc) :
    ∃ (v k : Nat) (r : Step),
      v ∈ (stateAt pages fc algo i).memory ∧
      jsIndexOf (stateAt pages fc algo i).memory v = (k : Int) ∧
      k < (stateAt pages fc algo i).memory.length ∧
      (stateAt pages fc algo i).memory.getD k 0 = v ∧
      (stateAt pages fc algo (i + 1)).memory =
        spliceReplace (stateAt pages fc algo i).memory (k : Int) (pages.getD i 0) ∧
      (stateAt pages fc algo (i + 1)).result =
        (stateAt pages fc algo i).result ++ [r] ∧
      r.replacedIndex = (k : Int) ∧ r.hit = false ∧
      r.memory = (stateAt pages fc algo (i + 1)).memory ∧
      r.index = i ∧ r.page = pages.getD i 0 := by
  have hne : (stateAt pages fc algo i).memory ≠ [] := by
    intro hcon
    rw [hcon] at hfull
    simp at hfull
    omega
  rcases hA with hf | hl | ho
  · subst hf
    obtain ⟨imem, -, -, -⟩ := fifo_inv pages fc hC i (by omega)
    have hqne : (stateAt pages fc "fifo" i).fifoQueue ≠ [] := by
      obtain ⟨q0, hq0⟩ := List.exists_mem_of_ne_nil _ hne
      intro hcon
      have hq0' := (imem q0).mp hq0
      rw [hcon] at hq0'
      exact absurd hq0' (List.not_mem_nil q0)
    obtain ⟨old, qtail, hq⟩ := List.exists_cons_of_ne_nil hqne
    have hold_mem : old ∈ (stateAt pages fc "fifo" i).memory :=
      (imem old).mpr (by rw [hq]; exact List.mem_cons_self _ _)
    obtain ⟨k, hk_eq, hk_lt, hgetD, -⟩ := jsIndexOf_spec hold_mem
    refine ⟨old, k, ⟨i, pages.getD i 0,
        spliceReplace (stateAt pages fc "fifo" i).memory (k : Int) (pages.getD i 0),
        false, (k : Int), "FIFO replaced " ++ toString old⟩,
      hold_mem, hk_eq, hk_lt, hgetD, ?_, ?_, rfl, rfl, ?_, rfl, rfl⟩ <;>
      rw [stateAt_succ pages fc "fifo" hi, procOne_full_fifo hfault hfull hq] <;>
      dsimp only <;> rw [hk_eq]
  · subst hl
    obtain ⟨v, kk, hacc, hvmem, -, -, -, -⟩ :=
      lruScan_spec (stateAt pages fc "lru" i).lastUsed _ hne
    have hv1 : (lruScan (stateAt pages fc "lru" i).lastUsed
        (stateAt pages fc "lru" i).memory).1 = some v := by rw [hacc]
    obtain ⟨k, hk_eq, hk_lt, hgetD, -⟩ := jsIndexOf_spec hvmem
    refine ⟨v, k, ⟨i, pages.getD i 0,
        spliceReplace (stateAt pages fc "lru" i).memory (k : Int) (pages.getD i 0),
        false, (k : Int), "LRU replaced " ++ toString v⟩,
      hvmem, hk_eq, hk_lt, hgetD, ?_, ?_, rfl, rfl, ?_, rfl, rfl⟩ <;>
      rw [stateAt_succ pages fc "lru" hi, procOne_full_lru hfault hfull hv1] <;>
      dsimp only <;> rw [hk_eq]
  · subst ho
    obtain ⟨v, hacc, hvmem, -, -⟩ := optScan_spec (pages.drop (i + 1)) _ hne
    have hv1 : (optScan (pages.drop (i + 1))
        (stateAt pages fc "optimal" i).memory).1 = some v := by rw [hacc]
    obtain ⟨k, hk_eq, hk_lt, hgetD, -⟩ := jsIndexOf_spec hvmem
    refine ⟨v, k, ⟨i, pages.getD i 0,
        spliceReplace (stateAt pages fc "optimal" i).memory (k : Int) (pages.getD i 0),
        false, (k : Int), "Optimal replaced " ++ toString v⟩,
      hvmem, hk_eq, hk_lt, hgetD, ?_, ?_, rfl, rfl, ?_, rfl, rfl⟩ <;>
      rw [stateAt_succ pages fc "optimal" hi, procOne_full_opt hfault hfull hv1] <;>
      dsimp only <;> rw [hk_eq]

/-! ## Claim C7 (amended part) -/

/-- C7 amended: the evicted-slot field is `-1` ("none") exactly on hits; on
a fault served by filling a free slot it records the index of the newly
filled slot (the previous memory length), and on a full fault it records the
slot of the evicted resident page, a valid index below the capacity. -/
theorem replacedIndex_semantics (pages : List Nat) (fc : Nat) (algo : String)
    (hA : recognized algo) (hC : 1 ≤ fc) {i : Nat} (hi : i < pages.length) :
    ∃ r : Step, (computeSteps pages fc algo).steps[i]? = some r ∧
      (r.hit = true → r.replacedIndex = -1) ∧
      (r.hit = false → (stateAt pages fc algo i).memory.length < fc →
        r.replacedIndex = ((stateAt pages fc algo i).memory.length : Int)) ∧
      (r.hit = false → ¬ (stateAt pages fc algo i).memory.length < fc →
        ∃ k : Nat, r.replacedIndex = (k : Int) ∧ k < fc ∧
          (stateAt pages fc algo i).memory.getD k 0 ∈ (stateAt pages fc algo i).memory ∧
          r.memory = spliceReplace (stateAt pages fc algo i).memory (k : Int)
            (pages.getD i 0)) := by
  obtain ⟨r, hget, hsnoc⟩ := record_at pages fc algo hA hi
  by_cases hmem : pages.getD i 0 ∈ (stateAt pages fc algo i).memory
  · rw [stateAt_succ pages fc algo hi, procOne_hit hmem] at hsnoc
    dsimp only at hsnoc
    have hr : (⟨i, pages.getD i 0, (stateAt pages fc algo i).memory, true, -1, "Hit"⟩ : Step)
        = r := by
      have h2 := List.append_cancel_left hsnoc
      simpa using h2
    refine ⟨r, hget, ?_, ?_, ?_⟩
    · intro _
      rw [← hr]
    · intro habs _
      rw [← hr] at habs
      simp at habs
    · intro habs _
      rw [← hr] at habs
      simp at habs
  · by_cases hfree : (stateAt pages fc algo i).memory.length < fc
    · rw [stateAt_succ pages fc algo hi, procOne_free hmem hfree] at hsnoc
      dsimp only at hsnoc
      have hr : (⟨i, pages.getD i 0, (stateAt pages fc algo i).memory ++ [pages.getD i 0],
          false, ((stateAt pages fc algo i).memory.length : Int),
          "Placed into free slot"⟩ : Step) = r := by
        have h2 := List.append_cancel_left hsnoc
        simpa using h2
      refine ⟨r, hget, ?_, ?_, ?_⟩
      · intro habs
        rw [← hr] at habs
        simp at habs
      · intro _ _
        rw [← hr]
      · intro _ habs
        exact absurd hfree habs
    · obtain ⟨v, k, r2, hvmem, hk_eq, hk_lt, hgetD, hmemupd, hsnoc2, hri2, hhit2,
        hrmem2, -, -⟩ := full_fault_step pages fc algo hA hC hi hmem hfree
      have hr : r2 = r := by
        rw [hsnoc2] at hsnoc
        have h2 := List.append_cancel_left hsnoc
        simpa using h2
      subst hr
      refine ⟨r2, hget, ?_, ?_, ?_⟩
      · intro habs
        rw [hhit2] at habs
        simp at habs
      · intro _ habs
        exact absurd habs hfree
      · intro _ _
        have hlen := (stateAt_memory_inv pages fc algo hC i).2
        refine ⟨k, hri2, by omega, by rw [hgetD]; exact hvmem, ?_⟩
        rw [hrmem2, hmemupd]

theorem replacedIndex_semantics_witness :
    ∃ r : Step, (computeSteps [2, 2] 1 "fifo").steps[1]? = some r ∧
      (r.hit = true → r.replacedIndex = -1) ∧
      (r.hit = false → (stateAt [2, 2] 1 "fifo" 1).memory.length < 1 →
        r.replacedIndex = ((stateAt [2, 2] 1 "fifo" 1).memory.length : Int)) ∧
      (r.hit = false → ¬ (stateAt [2, 2] 1 "fifo" 1).memory.length < 1 →
        ∃ k : Nat, r.replacedIndex = (k : Int) ∧ k < 1 ∧
          (stateAt [2, 2] 1 "fifo" 1).memory.getD k 0 ∈ (stateAt [2, 2] 1 "fifo" 1).memory ∧
          r.memory = spliceReplace (stateAt [2, 2] 1 "fifo" 1).memory (k : Int)
            ([2, 2].getD 1 0)) :=
  replacedIndex_semantics [2, 2] 1 "fifo" (by decide) (by decide) (by decide)

/-! ## Claim C8 -/

/-- C8: on a hit the frame contents are unchanged by the access; on a fault
with all frames full the new frame contents have the same length `C` as
before and differ from the previous contents only at the recorded replaced
slot, which now holds the accessed page. -/
theorem frame_update_semantics (pages : List Nat) (fc : Nat) (algo : String)
    (hA : recognized algo) (hC : 1 ≤ fc) {i : Nat} (hi : i < pages.length) :
    ∃ r : Step, (computeSteps pages fc algo).steps[i]? = some r ∧
      (r.hit = true →
        (stateAt pages fc algo (i + 1)).memory = (stateAt pages fc algo i).memory) ∧
      (r.hit = false → ¬ (stateAt pages fc algo i).memory.length < fc →
        ∃ k : Nat, r.replacedIndex = (k : Int) ∧ k < fc ∧
          (stateAt pages fc algo i).memory.length = fc ∧
          (stateAt pages fc algo (i + 1)).memory.length = fc ∧
          (stateAt pages fc algo (i + 1)).memory.getD k 0 = pages.getD i 0 ∧
          (∀ j, j < fc → j ≠ k →
            (stateAt pages fc algo (i + 1)).memory.getD j 0
              = (stateAt pages fc algo i).memory.getD j 0)) := by
  obtain ⟨r, hget, -, -, -, hhit_iff⟩ := steps_record pages fc algo hA hi
  refine ⟨r, hget, ?_, ?_⟩
  · intro hh
    have hmem := hhit_iff.mp hh
    rw [stateAt_succ pages fc algo hi, procOne_hit hmem]
  · intro hh hfull
    have hfault : pages.getD i 0 ∉ (stateAt pages fc algo i).memory := by
      intro hc
      rw [hhit_iff.mpr hc] at hh
      exact absurd hh (by simp)
    obtain ⟨v, k, r2, hvmem, hk_eq, hk_lt, hgetD, hmemupd, hsnoc2, hri2, hhit2,
      hrmem2, -, -⟩ := full_fault_step pages fc algo hA hC hi hfault hfull
    obtain ⟨r', hget', hsnoc'⟩ := record_at pages fc algo hA hi
    have hr'r : r' = r := by
      rw [hget] at hget'
      exact (Option.some.inj hget').symm
    have hr2r : r2 = r := by
      rw [hsnoc2] at hsnoc'
      have h2 := List.append_cancel_left hsnoc'
      rw [hr'r] at h2
      simpa using h2
    have hlenle := (stateAt_memory_inv pages fc algo hC i).2
    have hlen : (stateAt pages fc algo i).memory.length = fc := by omega
    refine ⟨k, by rw [← hr2r]; exact hri2, by omega, hlen, ?_, ?_, ?_⟩
    · rw [hmemupd, length_spliceReplace hk_lt, hlen]
    · rw [hmemupd, spliceReplace_getD_self hk_lt]
    · intro j hj hjk
      rw [hmemupd, spliceReplace_getD_ne hk_lt (by omega) hjk]

theorem frame_update_semantics_witness :
    ∃ r : Step, (computeSteps [1, 2, 3] 1 "lru").steps[2]? = some r ∧
      (r.hit = true →
        (stateAt [1, 2, 3] 1 "lru" 3).memory = (stateAt [1, 2, 3] 1 "lru" 2).memory) ∧
      (r.hit = false → ¬ (stateAt [1, 2, 3] 1 "lru" 2).memory.length < 1 →
        ∃ k : Nat, r.replacedIndex = (k : Int) ∧ k < 1 ∧
          (stateAt [1, 2, 3] 1 "lru" 2).memory.length = 1 ∧
          (stateAt [1, 2, 3] 1 "lru" 3).memory.length = 1 ∧
          (stateAt [1, 2, 3] 1 "lru" 3).memory.getD k 0 = [1, 2, 3].getD 2 0 ∧
          (∀ j, j < 1 → j ≠ k →
            (stateAt [1, 2, 3] 1 "lru" 3).memory.getD j 0
              = (stateAt [1, 2, 3] 1 "lru" 2).memory.getD j 0)) :=
  frame_update_semantics [1, 2, 3] 1 "lru" (by decide) (by decide) (by decide)

/-! ## Run lemmas for the second implementation -/

theorem sim2Loop_append (pages : List Nat) (fr : Nat) (algo : String)
    (l1 l2 : List Nat) (i : Nat) (st : Sim2State) :
    sim2Loop pages fr algo i (l1 ++ l2) st =
      sim2Loop pages fr algo (i + l1.length) l2 (sim2Loop pages fr algo i l1 st) := by
  induction l1 generalizing i st with
  | nil => simp [sim2Loop]
  | cons p rest ih =>
    simp only [List.cons_append, sim2Loop, List.length_cons, List.append_eq]
    rw [ih]
    have : i + (rest.length + 1) = (i + 1) + rest.length := by omega
    rw [this]

theorem state2At_zero (pages : List Nat) (fr : Nat) (algo : String) :
    state2At pages fr algo 0 = ⟨[], 0, []⟩ := by
  simp [state2At, sim2Loop]

theorem state2At_succ (pages : List Nat) (fr : Nat) (algo : String) {k : Nat}
    (hk : k < pages.length) :
    state2At pages fr algo (k + 1) =
      proc2 pages fr algo k (pages.getD k 0) (state2At pages fr algo k) := by
  have hg : pages.getD k 0 = pages[k] := by
    rw [List.getD_eq_getElem?_getD, List.getElem?_eq_getElem hk]; rfl
  unfold state2At
  rw [hg, List.take_succ, List.getElem?_eq_getElem hk]
  rw [sim2Loop_append]
  simp [sim2Loop, List.length_take, Nat.min_eq_left (Nat.le_of_lt hk)]

theorem simulate_eq (pages : List Nat) (fr : Nat) (algo : String) :
    simulate pages fr algo = state2At pages fr algo pages.length := by
  unfold simulate state2At
  rw [List.take_length]

/-! ### Branch lemmas for `proc2` -/

theorem proc2_hit {pages : List Nat} {fr : Nat} {algo : String} {i page : Nat}
    {st : Sim2State} (h : page ∈ st.memory) :
    proc2 pages fr algo i page st = { st with hitsLog := st.hitsLog ++ [true] } := by
  unfold proc2
  rw [if_pos h]

theorem proc2_free {pages : List Nat} {fr : Nat} {algo : String} {i page : Nat}
    {st : Sim2State} (h1 : page ∉ st.memory) (h2 : st.memory.length < fr) :
    proc2 pages fr algo i page st =
      ⟨st.memory ++ [page], st.faults + 1, st.hitsLog ++ [false]⟩ := by
  unfold proc2
  rw [if_neg h1, if_pos h2]

theorem proc2_full_fifo {pages : List Nat} {fr : Nat} {i page : Nat}
    {st : Sim2State} (h1 : page ∉ st.memory) (h2 : ¬ st.memory.length < fr) :
    proc2 pages fr "fifo" i page st =
      ⟨st.memory.tail ++ [page], st.faults + 1, st.hitsLog ++ [false]⟩ := by
  unfold proc2
  rw [if_neg h1, if_neg h2, if_pos rfl]

theorem proc2_full_lru {pages : List Nat} {fr : Nat} {i page : Nat}
    {st : Sim2State} (h1 : page ∉ st.memory) (h2 : ¬ st.memory.length < fr) :
    proc2 pages fr "lru" i page st =
      ⟨(spliceRemove st.memory
          (match listMinI (st.memory.map (fun m => jsLastIndexOf (pages.take i) m)) with
            | some mn => jsIndexOfI
                (st.memory.map (fun m => jsLastIndexOf (pages.take i) m)) mn
            | none => -1)) ++ [page],
        st.faults + 1, st.hitsLog ++ [false]⟩ := by
  unfold proc2
  rw [if_neg h1, if_neg h2, if_neg (by decide : ¬ ("lru" : String) = "fifo"), if_pos rfl]

theorem proc2_full_opt {pages : List Nat} {fr : Nat} {i page : Nat}
    {st : Sim2State} (h1 : page ∉ st.memory) (h2 : ¬ st.memory.length < fr) :
    proc2 pages fr "optimal" i page st =
      ⟨(spliceRemove st.memory
          (match listMaxI (st.memory.map (fun m => nextUseO (pages.drop (i + 1)) m)) with
            | some mx => jsIndexOfO
                (st.memory.map (fun m => nextUseO (pages.drop (i + 1)) m)) mx
            | none => -1)) ++ [page],
        st.faults + 1, st.hitsLog ++ [false]⟩ := by
  unfold proc2
  rw [if_neg h1, if_neg h2, if_neg (by decide : ¬ ("optimal" : String) = "fifo"),
    if_neg (by decide : ¬ ("optimal" : String) = "lru"), if_pos rfl]

/-! ### Per-access structure of the second implementation -/

theorem state2At_log (pages : List Nat) (fr : Nat) (algo : String) {k : Nat}
    (hk : k < pages.length) :
    (state2At pages fr algo (k + 1)).hitsLog =
      (state2At pages fr algo k).hitsLog ++
        [decide (pages.getD k 0 ∈ (state2At pages fr algo k).memory)] ∧
    (state2At pages fr algo (k + 1)).faults =
      (state2At pages fr algo k).faults +
        (if pages.getD k 0 ∈ (state2At pages fr algo k).memory then 0 else 1) := by
  rw [state2At_succ pages fr algo hk]
  unfold proc2
  by_cases hmem : pages.getD k 0 ∈ (state2At pages fr algo k).memory
  · rw [if_pos hmem]
    exact ⟨by rw [decide_eq_true hmem], by rw [if_pos hmem]; dsimp only; omega⟩
  · rw [if_neg hmem]
    exact ⟨by rw [decide_eq_false hmem], by rw [if_neg hmem]⟩

theorem state2At_log_length (pages : List Nat) (fr : Nat) (algo : String) :
    ∀ k, k ≤ pages.length → (state2At pages fr algo k).hitsLog.length = k := by
  intro k
  induction k with
  | zero =>
    intro _
    rw [state2At_zero]
    rfl
  | succ m ih =>
    intro hm
    have hlt : m < pages.length := by omega
    rw [(state2At_log pages fr algo hlt).1, List.length_append, ih (by omega)]
    rfl

theorem state2At_log_get (pages : List Nat) (fr : Nat) (algo : String)
    {i : Nat} (hi : i < pages.length) :
    ∀ n, i < n → n ≤ pages.length →
      (state2At pages fr algo n).hitsLog[i]? =
        some (decide (pages.getD i 0 ∈ (state2At pages fr algo i).memory)) := by
  intro n
  induction n with
  | zero => omega
  | succ m ih =>
    intro h1 h2
    rcases Nat.lt_or_ge i m with hlt | hge
    · have hm : m < pages.length := by omega
      rw [(state2At_log pages fr algo hm).1, List.getElem?_append_left
        (by rw [state2At_log_length pages fr algo m (by omega)]; omega)]
      exact ih hlt (by omega)
    · have him : i = m := by omega
      subst him
      rw [(state2At_log pages fr algo (by omega : i < pages.length)).1,
        List.getElem?_append_right
          (by rw [state2At_log_length pages fr algo i (by omega)]),
        state2At_log_length pages fr algo i (by omega)]
      simp

/-! ## Equivalence of the two implementations: FIFO -/

theorem equiv_fifo (pages : List Nat) (fc : Nat) (hC : 1 ≤ fc) :
    ∀ n, n ≤ pages.length →
      (stateAt pages fc "fifo" n).fifoQueue = (state2At pages fc "fifo" n).memory ∧
      (stateAt pages fc "fifo" n).faults = (state2At pages fc "fifo" n).faults := by
  intro n
  induction n with
  | zero =>
    intro _
    rw [stateAt_zero, state2At_zero]
    exact ⟨rfl, rfl⟩
  | succ m ih =>
    intro hm1
    have hm : m < pages.length := by omega
    obtain ⟨ihq, ihf⟩ := ih (by omega)
    obtain ⟨imem, ind, -, -⟩ := fifo_inv pages fc hC m (by omega)
    have hmagree : ∀ q, q ∈ (stateAt pages fc "fifo" m).memory ↔
        q ∈ (state2At pages fc "fifo" m).memory := by
      intro q
      rw [imem q, ihq]
    have hnd1 := (stateAt_memory_inv pages fc "fifo" hC m).1
    have hlen : (stateAt pages fc "fifo" m).memory.length
        = (state2At pages fc "fifo" m).memory.length := by
      have hperm : (stateAt pages fc "fifo" m).memory.Perm
          (stateAt pages fc "fifo" m).fifoQueue :=
        (List.perm_ext_iff_of_nodup hnd1 ind).mpr imem
      rw [hperm.length_eq, ihq]
    rw [stateAt_succ pages fc "fifo" hm, state2At_succ pages fc "fifo" hm]
    by_cases hmem : pages.getD m 0 ∈ (stateAt pages fc "fifo" m).memory
    · have hmem2 : pages.getD m 0 ∈ (state2At pages fc "fifo" m).memory :=
        (hmagree _).mp hmem
      rw [procOne_hit hmem, proc2_hit hmem2]
      exact ⟨ihq, ihf⟩
    · have hmem2 : pages.getD m 0 ∉ (state2At pages fc "fifo" m).memory :=
        fun hc => hmem ((hmagree _).mpr hc)
      by_cases hfree : (stateAt pages fc "fifo" m).memory.length < fc
      · have hfree2 : (state2At pages fc "fifo" m).memory.length < fc := by omega
        rw [procOne_free hmem hfree, proc2_free hmem2 hfree2]
        exact ⟨by dsimp only; rw [ihq], by dsimp only; rw [ihf]⟩
      · have hfull2 : ¬ (state2At pages fc "fifo" m).memory.length < fc := by omega
        have hne : (stateAt pages fc "fifo" m).memory ≠ [] := by
          intro hcon
          rw [hcon] at hfree
          simp at hfree
          omega
        have hqne : (stateAt pages fc "fifo" m).fifoQueue ≠ [] := by
          obtain ⟨q0, hq0⟩ := List.exists_mem_of_ne_nil _ hne
          intro hcon
          have hq0' := (imem q0).mp hq0
          rw [hcon] at hq0'
          exact absurd hq0' (List.not_mem_nil q0)
        obtain ⟨old, qtail, hq⟩ := List.exists_cons_of_ne_nil hqne
        rw [procOne_full_fifo hmem hfree hq, proc2_full_fifo hmem2 hfull2]
        refine ⟨?_, by dsimp only; rw [ihf]⟩
        dsimp only
        rw [← ihq, hq]
        rfl

/-! ## Utility lemmas for the LRU/Optimal equivalences -/

theorem jsLastIndexOf_eq_neg_one_iff (l : List Nat) (x : Nat) :
    jsLastIndexOf l x = -1 ↔ x ∉ l := by
  unfold jsLastIndexOf
  rcases h : l.reverse.findIdx? (fun y => y = x) with _ | k
  · rw [List.findIdx?_eq_none_iff] at h
    refine iff_of_true rfl (fun hx => by simpa using h x (by rwa [List.mem_reverse]))
  · rw [List.findIdx?_eq_some_iff_getElem] at h
    obtain ⟨hk, hpk, -⟩ := h
    simp only [decide_eq_true_eq] at hpk
    refine iff_of_false (fun hc => ?_) (fun hns => hns ?_)
    · change ((l.length - 1 - k : Nat) : Int) = -1 at hc
      omega
    · rw [← List.mem_reverse]
      exact hpk ▸ List.getElem_mem hk

theorem jsLastIndexOf_nonneg_getD {l : List Nat} {x : Nat} {j : Nat}
    (h : jsLastIndexOf l x = (j : Int)) : j < l.length ∧ l.getD j 0 = x := by
  unfold jsLastIndexOf at h
  rcases hf : l.reverse.findIdx? (fun y => y = x) with _ | k
  · rw [hf] at h
    change (-1 : Int) = (j : Int) at h
    exact absurd h (by omega)
  · rw [hf] at h
    rw [List.findIdx?_eq_some_iff_getElem] at hf
    obtain ⟨hk, hpk, -⟩ := hf
    simp only [decide_eq_true_eq] at hpk
    have hkl : k < l.length := by simpa using hk
    have hj : j = l.length - 1 - k := by
      change ((l.length - 1 - k : Nat) : Int) = (j : Int) at h
      omega
    subst hj
    refine ⟨by omega, ?_⟩
    have hb2 : l.length - 1 - k < l.length := by omega
    have hrev : l.reverse[k] = l[l.length - 1 - k] := by
      rw [List.getElem_reverse]
    rw [List.getD_eq_getElem?_getD, List.getElem?_eq_getElem (by omega : l.length - 1 - k < l.length)]
    rw [hrev] at hpk
    simpa using hpk

/-- Distinct pages that both occur in the prefix have distinct last-access
positions; equivalently `lastAccess` is injective on non-negative values. -/
theorem lastAccess_inj {pages : List Nat} {n : Nat} {p q : Nat}
    (hp : 0 ≤ lastAccess pages n p)
    (heq : lastAccess pages n p = lastAccess pages n q) : p = q := by
  unfold lastAccess at *
  obtain ⟨j, hj⟩ := Int.eq_ofNat_of_zero_le hp
  obtain ⟨-, hgp⟩ := jsLastIndexOf_nonneg_getD hj
  rw [hj] at heq
  obtain ⟨-, hgq⟩ := jsLastIndexOf_nonneg_getD heq.symm
  rw [← hgp, ← hgq]

theorem getD_map_eq {l : List Nat} {f : Nat → Int} {k : Nat} (hk : k < l.length) :
    (l.map f).getD k 0 = f (l.getD k 0) := by
  have hk' : k < (l.map f).length := by simpa using hk
  rw [List.getD_eq_getElem?_getD, List.getElem?_eq_getElem hk',
    List.getD_eq_getElem?_getD, List.getElem?_eq_getElem hk]
  simp

theorem getD_mapO_eq {l : List Nat} {f : Nat → Option Int} {k : Nat}
    (hk : k < l.length) :
    (l.map f).getD k none = f (l.getD k 0) := by
  have hk' : k < (l.map f).length := by simpa using hk
  rw [List.getD_eq_getElem?_getD, List.getElem?_eq_getElem hk',
    List.getD_eq_getElem?_getD, List.getElem?_eq_getElem hk]
  simp

theorem listMinI_spec (l : List Int) (hne : l ≠ []) :
    ∃ mn : Int, listMinI l = some mn ∧ mn ∈ l ∧ ∀ y ∈ l, mn ≤ y := by
  induction l using List.reverseRecOn with
  | nil => exact absurd rfl hne
  | append_singleton t a ih =>
    rcases List.eq_nil_or_concat t with ht | ⟨t', a', ht⟩
    · subst ht
      exact ⟨a, rfl, by simp, by simp⟩
    · have htne : t ≠ [] := by subst ht; simp
      obtain ⟨mn, hmn, hmem, hmin⟩ := ih htne
      have hfold : listMinI (t ++ [a]) = some (min mn a) := by
        rcases t with _ | ⟨x, xs⟩
        · exact absurd rfl htne
        · unfold listMinI at hmn ⊢
          simp only [List.cons_append, List.foldl_append, List.foldl_cons, List.foldl_nil]
          rw [Option.some.inj hmn]
      refine ⟨min mn a, hfold, ?_, ?_⟩
      · rcases le_total mn a with h | h
        · rw [min_eq_left h]
          exact List.mem_append_left _ hmem
        · rw [min_eq_right h]
          exact List.mem_append_right _ (by simp)
      · intro y hy
        rcases List.mem_append.mp hy with h | h
        · exact le_trans (min_le_left _ _) (hmin y h)
        · rw [List.mem_singleton] at h
          subst h
          exact min_le_right _ _

theorem jsIndexOfI_spec {l : List Int} {x : Int} (h : x ∈ l) :
    ∃ k : Nat, jsIndexOfI l x = (k : Int) ∧ k < l.length ∧ l.getD k 0 = x := by
  unfold jsIndexOfI
  rcases hf : l.findIdx? (fun y => y = x) with _ | k
  · rw [List.findIdx?_eq_none_iff] at hf
    have := hf x h
    simp at this
  · rw [List.findIdx?_eq_some_iff_getElem] at hf
    obtain ⟨hk, hpk, -⟩ := hf
    simp only [decide_eq_true_eq] at hpk
    refine ⟨k, rfl, hk, ?_⟩
    simp [List.getD_eq_getElem?_getD, List.getElem?_eq_getElem hk, hpk]

theorem jsIndexOfO_spec {l : List (Option Int)} {x : Option Int} (h : x ∈ l) :
    ∃ k : Nat, jsIndexOfO l x = (k : Int) ∧ k < l.length ∧ l.getD k none = x := by
  unfold jsIndexOfO
  rcases hf : l.findIdx? (fun y => y = x) with _ | k
  · rw [List.findIdx?_eq_none_iff] at hf
    have := hf x h
    simp at this
  · rw [List.findIdx?_eq_some_iff_getElem] at hf
    obtain ⟨hk, hpk, -⟩ := hf
    simp only [decide_eq_true_eq] at hpk
    refine ⟨k, rfl, hk, ?_⟩
    simp [List.getD_eq_getElem?_getD, List.getElem?_eq_getElem hk, hpk]

theorem leNUb_refl (a : Option Int) : leNUb a a = true := by
  rcases a with _ | av
  · rfl
  · show decide (av ≤ av) = true
    simp

theorem maxI_mem (a b : Option Int) : maxI a b = a ∨ maxI a b = b := by
  rcases a with _ | av <;> rcases b with _ | bv
  · exact Or.inl rfl
  · exact Or.inl rfl
  · exact Or.inr rfl
  · have hm : maxI (some av) (some bv) = some (max av bv) := rfl
    rw [hm]
    rcases le_total av bv with h | h
    · exact Or.inr (by rw [max_eq_right h])
    · exact Or.inl (by rw [max_eq_left h])

theorem leNUb_maxI_left (a b : Option Int) : leNUb a (maxI a b) = true := by
  rcases a with _ | av <;> rcases b with _ | bv
  · rfl
  · rfl
  · rfl
  · show decide (av ≤ max av bv) = true
    simp only [decide_eq_true_eq]
    exact le_max_left _ _

theorem leNUb_maxI_right (a b : Option Int) : leNUb b (maxI a b) = true := by
  rcases a with _ | av <;> rcases b with _ | bv
  · rfl
  · rfl
  · rfl
  · show decide (bv ≤ max av bv) = true
    simp only [decide_eq_true_eq]
    exact le_max_right _ _

theorem leNUb_trans {a b c : Option Int} (h1 : leNUb a b = true)
    (h2 : leNUb b c = true) : leNUb a c = true := by
  rcases a with _ | av <;> rcases b with _ | bv <;> rcases c with _ | cv
  · rfl
  · exact h2
  · rfl
  · exact h1
  · rfl
  · exact absurd h2 (by simp [leNUb])
  · rfl
  · show decide (av ≤ cv) = true
    have g1 : av ≤ bv := by simpa [leNUb] using h1
    have g2 : bv ≤ cv := by simpa [leNUb] using h2
    simp only [decide_eq_true_eq]
    omega

theorem listMaxI_spec (l : List (Option Int)) (hne : l ≠ []) :
    ∃ mx : Option Int, listMaxI l = some mx ∧ mx ∈ l ∧ ∀ y ∈ l, leNUb y mx = true := by
  induction l using List.reverseRecOn with
  | nil => exact absurd rfl hne
  | append_singleton t a ih =>
    rcases List.eq_nil_or_concat t with ht | ⟨t', a', ht⟩
    · subst ht
      refine ⟨a, rfl, by simp, ?_⟩
      intro y hy
      simp only [List.nil_append, List.mem_singleton] at hy
      subst hy
      exact leNUb_refl _
    · have htne : t ≠ [] := by subst ht; simp
      obtain ⟨mx, hmx, hmem, hmax⟩ := ih htne
      have hfold : listMaxI (t ++ [a]) = some (maxI mx a) := by
        rcases t with _ | ⟨x, xs⟩
        · exact absurd rfl htne
        · unfold listMaxI at hmx ⊢
          simp only [List.cons_append, List.foldl_append, List.foldl_cons, List.foldl_nil]
          rw [Option.some.inj hmx]
      refine ⟨maxI mx a, hfold, ?_, ?_⟩
      · rcases maxI_mem mx a with h | h
        · rw [h]
          exact List.mem_append_left _ hmem
        · rw [h]
          exact List.mem_append_right _ (by simp)
      · intro y hy
        rcases List.mem_append.mp hy with h | h
        · exact leNUb_trans (hmax y h) (leNUb_maxI_left mx a)
        · rw [List.mem_singleton] at h
          subst h
          exact leNUb_maxI_right mx y

theorem mem_eraseIdx_iff_of_nodup {l : List Nat} {k : Nat} (hnd : l.Nodup)
    (hk : k < l.length) (q : Nat) :
    q ∈ l.eraseIdx k ↔ q ∈ l ∧ q ≠ l.getD k 0 := by
  have hgetD : l.getD k 0 = l[k] := by
    rw [List.getD_eq_getElem?_getD, List.getElem?_eq_getElem hk]
    rfl
  rw [List.mem_eraseIdx_iff_getElem]
  constructor
  · rintro ⟨j, hjl, hjk, hget⟩
    refine ⟨hget ▸ List.getElem_mem hjl, ?_⟩
    rw [hgetD, ← hget]
    intro hcon
    apply hjk
    have : l.get ⟨j, hjl⟩ = l.get ⟨k, hk⟩ := by
      simp only [List.get_eq_getElem]
      rw [hcon]
    exact Fin.mk.injEq _ _ _ _ ▸ (List.Nodup.get_inj_iff hnd).mp this
  · rintro ⟨hql, hne⟩
    obtain ⟨j, hjl, hget⟩ := List.mem_iff_getElem.mp hql
    refine ⟨j, hjl, ?_, hget⟩
    intro hcon
    subst hcon
    exact hne (by rw [hgetD, hget])

theorem filter_length_compl (p : Nat → Bool) (l : List Nat) :
    (l.filter p).length + (l.filter (fun a => !(p a))).length = l.length := by
  induction l with
  | nil => rfl
  | cons hd tl ih =>
    by_cases hp : p hd
    · rw [List.filter_cons_of_pos hp, List.filter_cons_of_neg (by simp [hp])]
      simp only [List.length_cons]
      omega
    · rw [List.filter_cons_of_neg (by simpa using hp),
        List.filter_cons_of_pos (by simpa using hp)]
      simp only [List.length_cons]
      omega

theorem drop_eq_getD_cons {l : List Nat} {n : Nat} (hn : n < l.length) :
    l.drop n = l.getD n 0 :: l.drop (n + 1) := by
  rw [List.getD_eq_getElem?_getD, List.getElem?_eq_getElem hn]
  exact List.drop_eq_getElem_cons hn

theorem nextUseO_eq_none_iff (future : List Nat) (q : Nat) :
    nextUseO future q = none ↔ q ∉ future := by
  rw [← jsIndexOf_eq_neg_one_iff future q]
  constructor
  · intro h
    by_contra hcon
    rw [nextUseO_some hcon] at h
    exact absurd h (by simp)
  · intro h
    exact nextUseO_none h

/-! ## Equivalence of the two implementations: LRU -/

theorem equiv_lru (pages : List Nat) (fc : Nat) (hC : 1 ≤ fc) :
    ∀ n, n ≤ pages.length →
      (∀ q, q ∈ (stateAt pages fc "lru" n).memory ↔
        q ∈ (state2At pages fc "lru" n).memory) ∧
      (stateAt pages fc "lru" n).memory.length
        = (state2At pages fc "lru" n).memory.length ∧
      (state2At pages fc "lru" n).memory.Nodup ∧
      (stateAt pages fc "lru" n).faults = (state2At pages fc "lru" n).faults := by
  intro n
  induction n with
  | zero =>
    intro _
    rw [stateAt_zero, state2At_zero]
    exact ⟨fun q => Iff.rfl, rfl, List.nodup_nil, rfl⟩
  | succ m ih =>
    intro hm1
    have hm : m < pages.length := by omega
    obtain ⟨ihm, ihl, ihnd2, ihf⟩ := ih (by omega)
    have hnd1 := (stateAt_memory_inv pages fc "lru" hC m).1
    rw [stateAt_succ pages fc "lru" hm, state2At_succ pages fc "lru" hm]
    by_cases hmem : pages.getD m 0 ∈ (stateAt pages fc "lru" m).memory
    · have hmem2 : pages.getD m 0 ∈ (state2At pages fc "lru" m).memory :=
        (ihm _).mp hmem
      rw [procOne_hit hmem, proc2_hit hmem2]
      exact ⟨ihm, ihl, ihnd2, ihf⟩
    · have hmem2 : pages.getD m 0 ∉ (state2At pages fc "lru" m).memory :=
        fun hc => hmem ((ihm _).mpr hc)
      by_cases hfree : (stateAt pages fc "lru" m).memory.length < fc
      · have hfree2 : (state2At pages fc "lru" m).memory.length < fc := by omega
        rw [procOne_free hmem hfree, proc2_free hmem2 hfree2]
        refine ⟨?_, ?_, ?_, ?_⟩ <;> dsimp only
        · intro q
          rw [List.mem_append, List.mem_append, ihm q]
        · rw [List.length_append, List.length_append, ihl]
        · rw [List.nodup_append]
          refine ⟨ihnd2, List.nodup_singleton _, ?_⟩
          intro q hq
          simp only [List.mem_singleton]
          intro hc
          subst hc
          exact hmem2 hq
        · rw [ihf]
      · have hfull2 : ¬ (state2At pages fc "lru" m).memory.length < fc := by omega
        have hne : (stateAt pages fc "lru" m).memory ≠ [] := by
          intro hcon
          rw [hcon] at hfree
          simp at hfree
          omega
        have hne2 : (state2At pages fc "lru" m).memory ≠ [] := by
          intro hcon
          rw [hcon] at hfull2
          simp at hfull2
          omega
        -- the computeSteps victim
        obtain ⟨v1, kk, hacc, hv1mem, hkk, hgetkk, hmin1, -⟩ :=
          lruScan_spec (stateAt pages fc "lru" m).lastUsed _ hne
        have hv1 : (lruScan (stateAt pages fc "lru" m).lastUsed
            (stateAt pages fc "lru" m).memory).1 = some v1 := by rw [hacc]
        have hval : ∀ q ∈ (stateAt pages fc "lru" m).memory,
            luVal (stateAt pages fc "lru" m).lastUsed q = lastAccess pages m q := by
          intro q hq
          obtain ⟨j, hj1, hj2⟩ := lru_map_inv pages fc hC m (by omega) q hq
          rw [luVal_of_getLU hj1, hj2]
        -- the simulate victim
        have hidxne : (state2At pages fc "lru" m).memory.map
            (fun q => jsLastIndexOf (pages.take m) q) ≠ [] := by
          intro hcon
          rw [List.map_eq_nil_iff] at hcon
          exact hne2 hcon
        obtain ⟨mn, hmn, hmnmem, hmnle⟩ := listMinI_spec _ hidxne
        obtain ⟨k2, hk2_eq, hk2_lt, hk2_get⟩ := jsIndexOfI_spec hmnmem
        have hk2_lt' : k2 < (state2At pages fc "lru" m).memory.length := by
          rw [List.length_map] at hk2_lt
          exact hk2_lt
        set v2 : Nat := (state2At pages fc "lru" m).memory.getD k2 0 with hv2def
        have hv2mem : v2 ∈ (state2At pages fc "lru" m).memory := getD_mem hk2_lt'
        have hfv2 : jsLastIndexOf (pages.take m) v2 = mn := by
          rw [← hk2_get, getD_map_eq hk2_lt']
        -- the two victims coincide
        have hv1nonneg : 0 ≤ lastAccess pages m v1 := by
          obtain ⟨j, -, hj2⟩ := lru_map_inv pages fc hC m (by omega) v1 hv1mem
          rw [← hj2]
          omega
        have hva : lastAccess pages m v1 ≤ lastAccess pages m v2 := by
          have hv2m1 : v2 ∈ (stateAt pages fc "lru" m).memory := (ihm v2).mpr hv2mem
          have := hmin1 v2 hv2m1
          rw [hval v1 hv1mem, hval v2 hv2m1] at this
          exact this
        have hvb : lastAccess pages m v2 ≤ lastAccess pages m v1 := by
          have hv1m2 : v1 ∈ (state2At pages fc "lru" m).memory := (ihm v1).mp hv1mem
          have hin : jsLastIndexOf (pages.take m) v1 ∈
              (state2At pages fc "lru" m).memory.map
                (fun q => jsLastIndexOf (pages.take m) q) :=
            List.mem_map_of_mem _ hv1m2
          have := hmnle _ hin
          unfold lastAccess
          rw [hfv2] at *
          exact this
        have hveq : v1 = v2 :=
          lastAccess_inj hv1nonneg (le_antisymm hva hvb)
        -- unfold both full-fault branches
        obtain ⟨kk1, hkk1_eq, hkk1_lt, hkk1_get, -⟩ := jsIndexOf_spec hv1mem
        rw [procOne_full_lru hmem hfree hv1, proc2_full_lru hmem2 hfull2]
        have hrep : jsIndexOfI ((state2At pages fc "lru" m).memory.map
            (fun q => jsLastIndexOf (pages.take m) q)) mn = (k2 : Int) := hk2_eq
        simp only [hmn, hrep]
        have herase : spliceRemove (state2At pages fc "lru" m).memory (k2 : Int)
            = (state2At pages fc "lru" m).memory.eraseIdx k2 :=
          spliceRemove_eq_eraseIdx hk2_lt'
        refine ⟨?_, ?_, ?_, ?_⟩ <;> dsimp only
        · intro q
          rw [hkk1_eq, mem_spliceReplace_iff hnd1 hkk1_lt, hkk1_get,
            List.mem_append, herase,
            mem_eraseIdx_iff_of_nodup ihnd2 hk2_lt' q, List.mem_singleton,
            ← hv2def, ← hveq]
          constructor
          · rintro (rfl | ⟨hq1, hqv⟩)
            · exact Or.inr rfl
            · exact Or.inl ⟨(ihm q).mp hq1, hqv⟩
          · rintro (⟨hq2, hqv⟩ | rfl)
            · exact Or.inr ⟨(ihm q).mpr hq2, hqv⟩
            · exact Or.inl rfl
        · rw [hkk1_eq, length_spliceReplace hkk1_lt, List.length_append, herase,
            List.length_eraseIdx_of_lt hk2_lt']
          simp only [List.length_singleton]
          omega
        · rw [List.nodup_append, herase]
          refine ⟨List.Sublist.nodup (List.eraseIdx_sublist _ _) ihnd2,
            List.nodup_singleton _, ?_⟩
          intro q hq
          simp only [List.mem_singleton]
          intro hc
          subst hc
          exact hmem2 (List.Sublist.mem hq (List.eraseIdx_sublist _ _))
        · rw [ihf]

/-! ## Equivalence of the two implementations: Optimal -/

theorem nextUseO_eq_some {future : List Nat} {a : Nat} {f : Int}
    (h : nextUseO future a = some f) :
    jsIndexOf future a = f ∧ a ∈ future := by
  by_cases hj : jsIndexOf future a = -1
  · rw [nextUseO_none hj] at h
    exact absurd h (by simp)
  · rw [nextUseO_some hj] at h
    have hf : jsIndexOf future a = f := by
      unfold nextUseI at h
      exact Option.some.inj h
    refine ⟨hf, ?_⟩
    by_contra hcon
    exact hj ((jsIndexOf_eq_neg_one_iff future a).mpr hcon)

theorem nextUseO_inj {future : List Nat} {a b : Nat} {f : Int}
    (ha : nextUseO future a = some f) (hb : nextUseO future b = some f) : a = b := by
  obtain ⟨hfa, hamem⟩ := nextUseO_eq_some ha
  obtain ⟨hfb, hbmem⟩ := nextUseO_eq_some hb
  obtain ⟨ka, hka_eq, -, hka_get, -⟩ := jsIndexOf_spec hamem
  obtain ⟨kb, hkb_eq, -, hkb_get, -⟩ := jsIndexOf_spec hbmem
  have : ka = kb := by
    rw [hka_eq] at hfa
    rw [hkb_eq] at hfb
    omega
  rw [← hka_get, ← hkb_get, this]

theorem nextUseO_isNone_eq (future : List Nat) (q : Nat) :
    (nextUseO future q).isNone = !(decide (q ∈ future)) := by
  by_cases h : q ∈ future
  · have : nextUseO future q ≠ none := by
      intro hcon
      exact absurd ((nextUseO_eq_none_iff future q).mp hcon) (by simpa using h)
    rcases hv : nextUseO future q with _ | f
    · exact absurd hv this
    · simp [h]
  · rw [(nextUseO_eq_none_iff future q).mpr h]
    simp [h]

theorem equiv_opt (pages : List Nat) (fc : Nat) (hC : 1 ≤ fc) :
    ∀ n, n ≤ pages.length →
      (∀ q, q ∈ pages.drop n →
        (q ∈ (stateAt pages fc "optimal" n).memory ↔
         q ∈ (state2At pages fc "optimal" n).memory)) ∧
      (stateAt pages fc "optimal" n).memory.length
        = (state2At pages fc "optimal" n).memory.length ∧
      (state2At pages fc "optimal" n).memory.Nodup ∧
      (stateAt pages fc "optimal" n).faults = (state2At pages fc "optimal" n).faults := by
  intro n
  induction n with
  | zero =>
    intro _
    rw [stateAt_zero, state2At_zero]
    exact ⟨fun q _ => Iff.rfl, rfl, List.nodup_nil, rfl⟩
  | succ m ih =>
    intro hm1
    have hm : m < pages.length := by omega
    obtain ⟨ihm, ihl, ihnd2, ihf⟩ := ih (by omega)
    have hnd1 := (stateAt_memory_inv pages fc "optimal" hC m).1
    have hdropc : pages.drop m = pages.getD m 0 :: pages.drop (m + 1) :=
      drop_eq_getD_cons hm
    have hpage_drop : pages.getD m 0 ∈ pages.drop m := by
      rw [hdropc]
      exact List.mem_cons_self _ _
    have hdropsub : ∀ q, q ∈ pages.drop (m + 1) → q ∈ pages.drop m := by
      intro q hq
      rw [hdropc]
      exact List.mem_cons_of_mem _ hq
    rw [stateAt_succ pages fc "optimal" hm, state2At_succ pages fc "optimal" hm]
    by_cases hmem : pages.getD m 0 ∈ (stateAt pages fc "optimal" m).memory
    · have hmem2 : pages.getD m 0 ∈ (state2At pages fc "optimal" m).memory :=
        (ihm _ hpage_drop).mp hmem
      rw [procOne_hit hmem, proc2_hit hmem2]
      exact ⟨fun q hq => ihm q (hdropsub q hq), ihl, ihnd2, ihf⟩
    · have hmem2 : pages.getD m 0 ∉ (state2At pages fc "optimal" m).memory :=
        fun hc => hmem ((ihm _ hpage_drop).mpr hc)
      by_cases hfree : (stateAt pages fc "optimal" m).memory.length < fc
      · have hfree2 : (state2At pages fc "optimal" m).memory.length < fc := by omega
        rw [procOne_free hmem hfree, proc2_free hmem2 hfree2]
        refine ⟨?_, ?_, ?_, ?_⟩ <;> dsimp only
        · intro q hq
          rw [List.mem_append, List.mem_append, ihm q (hdropsub q hq)]
        · rw [List.length_append, List.length_append, ihl]
        · rw [List.nodup_append]
          refine ⟨ihnd2, List.nodup_singleton _, ?_⟩
          intro q hq
          simp only [List.mem_singleton]
          intro hc
          subst hc
          exact hmem2 hq
        · rw [ihf]
      · have hfull2 : ¬ (state2At pages fc "optimal" m).memory.length < fc := by omega
        have hne : (stateAt pages fc "optimal" m).memory ≠ [] := by
          intro hcon
          rw [hcon] at hfree
          simp at hfree
          omega
        have hne2 : (state2At pages fc "optimal" m).memory ≠ [] := by
          intro hcon
          rw [hcon] at hfull2
          simp at hfull2
          omega
        obtain ⟨v1, hacc, hv1mem, hmax1, hinf1⟩ :=
          optScan_spec (pages.drop (m + 1)) _ hne
        have hv1 : (optScan (pages.drop (m + 1))
            (stateAt pages fc "optimal" m).memory).1 = some v1 := by rw [hacc]
        have hidxne : (state2At pages fc "optimal" m).memory.map
            (fun q => nextUseO (pages.drop (m + 1)) q) ≠ [] := by
          intro hcon
          rw [List.map_eq_nil_iff] at hcon
          exact hne2 hcon
        obtain ⟨mx, hmx, hmxmem, hmxle⟩ := listMaxI_spec _ hidxne
        obtain ⟨k2, hk2_eq, hk2_lt, hk2_get⟩ := jsIndexOfO_spec hmxmem
        have hk2_lt' : k2 < (state2At pages fc "optimal" m).memory.length := by
          rw [List.length_map] at hk2_lt
          exact hk2_lt
        set v2 : Nat := (state2At pages fc "optimal" m).memory.getD k2 0 with hv2def
        have hv2mem : v2 ∈ (state2At pages fc "optimal" m).memory := getD_mem hk2_lt'
        have hfv2 : nextUseO (pages.drop (m + 1)) v2 = mx := by
          rw [← hk2_get, getD_mapO_eq hk2_lt']
        -- the filters of pages with a future occurrence coincide
        have hinfilter : List.Perm
            ((stateAt pages fc "optimal" m).memory.filter
              (fun q => decide (q ∈ pages.drop (m + 1))))
            ((state2At pages fc "optimal" m).memory.filter
              (fun q => decide (q ∈ pages.drop (m + 1)))) := by
          refine (List.perm_ext_iff_of_nodup (List.Nodup.filter _ hnd1)
            (List.Nodup.filter _ ihnd2)).mpr ?_
          intro q
          rw [List.mem_filter, List.mem_filter]
          constructor
          · rintro ⟨hq1, hq2⟩
            exact ⟨(ihm q (hdropsub q (by simpa using hq2))).mp hq1, hq2⟩
          · rintro ⟨hq1, hq2⟩
            exact ⟨(ihm q (hdropsub q (by simpa using hq2))).mpr hq1, hq2⟩
        have hinflen : ((stateAt pages fc "optimal" m).memory.filter
              (fun q => (nextUseO (pages.drop (m + 1)) q).isNone)).length =
            ((state2At pages fc "optimal" m).memory.filter
              (fun q => (nextUseO (pages.drop (m + 1)) q).isNone)).length := by
          have e1 : ∀ (l : List Nat), l.filter
                (fun q => (nextUseO (pages.drop (m + 1)) q).isNone) =
              l.filter (fun q => !(decide (q ∈ pages.drop (m + 1)))) := by
            intro l
            exact List.filter_congr (fun a _ => nextUseO_isNone_eq _ a)
          rw [e1, e1]
          have c1 := filter_length_compl (fun q => decide (q ∈ pages.drop (m + 1)))
            (stateAt pages fc "optimal" m).memory
          have c2 := filter_length_compl (fun q => decide (q ∈ pages.drop (m + 1)))
            (state2At pages fc "optimal" m).memory
          have := hinfilter.length_eq
          omega
        -- victims: either both never reappear, or they are equal
        have hvictims : (nextUseO (pages.drop (m + 1)) v1 = none ∧
            nextUseO (pages.drop (m + 1)) v2 = none) ∨ v1 = v2 := by
          by_cases hA : (stateAt pages fc "optimal" m).memory.filter
              (fun q => (nextUseO (pages.drop (m + 1)) q).isNone) = []
          · -- no resident of memory 1 is ∞; the two memories agree as sets
            right
            have hsub : ∀ q ∈ (stateAt pages fc "optimal" m).memory,
                q ∈ pages.drop (m + 1) := by
              intro q hq
              rw [List.filter_eq_nil_iff] at hA
              have := hA q hq
              simp only [Option.isNone_iff_eq_none, decide_eq_true_eq] at this
              by_contra hcon
              exact this ((nextUseO_eq_none_iff _ q).mpr hcon)
            have hseteq : ∀ q, q ∈ (stateAt pages fc "optimal" m).memory ↔
                q ∈ (state2At pages fc "optimal" m).memory := by
              have hsubset : (stateAt pages fc "optimal" m).memory ⊆
                  (state2At pages fc "optimal" m).memory := by
                intro q hq
                exact (ihm q (hdropsub q (hsub q hq))).mp hq
              have hperm : List.Perm (stateAt pages fc "optimal" m).memory
                  (state2At pages fc "optimal" m).memory :=
                List.Subperm.perm_of_length_le (List.Nodup.subperm hnd1 hsubset)
                  (by omega)
              exact fun q => hperm.mem_iff
            -- both next uses are finite and mutually bounded
            obtain ⟨f1, hf1⟩ : ∃ f1, nextUseO (pages.drop (m + 1)) v1 = some f1 := by
              rcases hv : nextUseO (pages.drop (m + 1)) v1 with _ | f1
              · rw [List.filter_eq_nil_iff] at hA
                have := hA v1 hv1mem
                simp only [Option.isNone_iff_eq_none] at this
                exact absurd hv this
              · exact ⟨f1, rfl⟩
            obtain ⟨f2, hf2⟩ : ∃ f2, nextUseO (pages.drop (m + 1)) v2 = some f2 := by
              rcases hv : nextUseO (pages.drop (m + 1)) v2 with _ | f2
              · rw [List.filter_eq_nil_iff] at hA
                have := hA v2 ((hseteq v2).mpr hv2mem)
                simp only [Option.isNone_iff_eq_none] at this
                exact absurd hv this
              · exact ⟨f2, rfl⟩
            have hle1 : f2 ≤ f1 := by
              have := hmax1 v2 ((hseteq v2).mpr hv2mem)
              rw [hf1, hf2] at this
              simpa [leNUb] using this
            have hle2 : f1 ≤ f2 := by
              have hin : nextUseO (pages.drop (m + 1)) v1 ∈
                  (state2At pages fc "optimal" m).memory.map
                    (fun q => nextUseO (pages.drop (m + 1)) q) :=
                List.mem_map_of_mem _ ((hseteq v1).mp hv1mem)
              have := hmxle _ hin
              rw [hf1, ← hfv2, hf2] at this
              simpa [leNUb] using this
            have : f1 = f2 := by omega
            exact nextUseO_inj hf1 (by rw [hf2, this])
          · -- some resident of memory 1 never reappears
            left
            constructor
            · have hlast := hinf1 hA
              have hv1filter := List.mem_of_getLast?_eq_some hlast
              rw [List.mem_filter] at hv1filter
              simpa using hv1filter.2
            · have hB : (state2At pages fc "optimal" m).memory.filter
                  (fun q => (nextUseO (pages.drop (m + 1)) q).isNone) ≠ [] := by
                intro hcon
                rw [hcon] at hinflen
                simp only [List.length_nil] at hinflen
                have := List.length_pos.mpr hA
                omega
              obtain ⟨w, hw⟩ := List.exists_mem_of_ne_nil _ hB
              rw [List.mem_filter] at hw
              have hwnone : nextUseO (pages.drop (m + 1)) w = none := by
                simpa using hw.2
              have hwin : nextUseO (pages.drop (m + 1)) w ∈
                  (state2At pages fc "optimal" m).memory.map
                    (fun q => nextUseO (pages.drop (m + 1)) q) :=
                List.mem_map_of_mem _ hw.1
              have := hmxle _ hwin
              rw [hwnone] at this
              rcases hmxv : mx with _ | g
              · rw [hfv2, hmxv]
              · rw [hmxv] at this
                exact absurd this (by simp [leNUb])
        -- unfold both branches
        obtain ⟨kk1, hkk1_eq, hkk1_lt, hkk1_get, -⟩ := jsIndexOf_spec hv1mem
        rw [procOne_full_opt hmem hfree hv1, proc2_full_opt hmem2 hfull2]
        have hrep : jsIndexOfO ((state2At pages fc "optimal" m).memory.map
            (fun q => nextUseO (pages.drop (m + 1)) q)) mx = (k2 : Int) := hk2_eq
        simp only [hmx, hrep]
        have herase : spliceRemove (state2At pages fc "optimal" m).memory (k2 : Int)
            = (state2At pages fc "optimal" m).memory.eraseIdx k2 :=
          spliceRemove_eq_eraseIdx hk2_lt'
        refine ⟨?_, ?_, ?_, ?_⟩ <;> dsimp only
        · intro q hq
          rw [hkk1_eq, mem_spliceReplace_iff hnd1 hkk1_lt, hkk1_get,
            List.mem_append, herase,
            mem_eraseIdx_iff_of_nodup ihnd2 hk2_lt' q, List.mem_singleton,
            ← hv2def]
          have hqm : q ∈ (stateAt pages fc "optimal" m).memory ↔
              q ∈ (state2At pages fc "optimal" m).memory :=
            ihm q (hdropsub q hq)
          rcases hvictims with ⟨hn1, hn2⟩ | hveq
          · have hqv1 : q ≠ v1 := by
              intro hc
              subst hc
              exact absurd hq ((nextUseO_eq_none_iff _ _).mp hn1)
            have hqv2 : q ≠ v2 := by
              intro hc
              subst hc
              exact absurd hq ((nextUseO_eq_none_iff _ _).mp hn2)
            constructor
            · rintro (rfl | ⟨hq1, -⟩)
              · exact Or.inr rfl
              · exact Or.inl ⟨hqm.mp hq1, hqv2⟩
            · rintro (⟨hq2, -⟩ | rfl)
              · exact Or.inr ⟨hqm.mpr hq2, hqv1⟩
              · exact Or.inl rfl
          · constructor
            · rintro (rfl | ⟨hq1, hqv⟩)
              · exact Or.inr rfl
              · exact Or.inl ⟨hqm.mp hq1, by rwa [← hveq]⟩
            · rintro (⟨hq2, hqv⟩ | rfl)
              · exact Or.inr ⟨hqm.mpr hq2, by rwa [hveq]⟩
              · exact Or.inl rfl
        · rw [hkk1_eq, length_spliceReplace hkk1_lt, List.length_append, herase,
            List.length_eraseIdx_of_lt hk2_lt']
          simp only [List.length_singleton]
          omega
        · rw [List.nodup_append, herase]
          refine ⟨List.Sublist.nodup (List.eraseIdx_sublist _ _) ihnd2,
            List.nodup_singleton _, ?_⟩
          intro q hq
          simp only [List.mem_singleton]
          intro hc
          subst hc
          exact hmem2 (List.Sublist.mem hq (List.eraseIdx_sublist _ _))
        · rw [ihf]

theorem equiv_core (pages : List Nat) (fc : Nat) (hC : 1 ≤ fc)
    (algo : String) (hA : recognized algo) :
    (∀ i, i ≤ pages.length →
      (stateAt pages fc algo i).faults = (state2At pages fc algo i).faults) ∧
    (∀ i, i < pages.length →
      (pages.getD i 0 ∈ (stateAt pages fc algo i).memory ↔
       pages.getD i 0 ∈ (state2At pages fc algo i).memory)) := by
  rcases hA with hf | hl | ho
  · subst hf
    constructor
    · intro i hi
      exact (equiv_fifo pages fc hC i hi).2
    · intro i hi
      obtain ⟨imem, -, -, -⟩ := fifo_inv pages fc hC i (by omega)
      rw [imem, (equiv_fifo pages fc hC i (by omega)).1]
  · subst hl
    constructor
    · intro i hi
      exact (equiv_lru pages fc hC i hi).2.2.2
    · intro i hi
      exact (equiv_lru pages fc hC i (by omega)).1 _
  · subst ho
    constructor
    · intro i hi
      exact (equiv_opt pages fc hC i hi).2.2.2
    · intro i hi
      have hpage_drop : pages.getD i 0 ∈ pages.drop i := by
        rw [drop_eq_getD_cons (by omega : i < pages.length)]
        exact List.mem_cons_self _ _
      exact (equiv_opt pages fc hC i (by omega)).1 _ hpage_drop

/-! ## Claim C10 -/

/-- C10: for every pages sequence, capacity `≥ 1` and algorithm in
{fifo, lru, optimal}, `computeSteps` of the first source file and the
simulation loop of `simulate` from the second source file agree on the
per-access hit/fault classification and on the total fault count. -/
theorem computeSteps_simulate_equiv (pages : List Nat) (fc : Nat) (hC : 1 ≤ fc)
    (algo : String) (hA : recognized algo) :
    (computeSteps pages fc algo).faults = (simulate pages fc algo).faults ∧
    ∀ i, i < pages.length → ∃ r : Step,
      (computeSteps pages fc algo).steps[i]? = some r ∧
      (simulate pages fc algo).hitsLog[i]? = some r.hit := by
  obtain ⟨hfaults, hagree⟩ := equiv_core pages fc hC algo hA
  constructor
  · rw [computeSteps_eq, simulate_eq]
    exact hfaults pages.length (Nat.le_refl _)
  · intro i hi
    obtain ⟨r, hget, -, -, -, hhit⟩ := steps_record pages fc algo hA hi
    refine ⟨r, hget, ?_⟩
    rw [simulate_eq, state2At_log_get pages fc algo hi pages.length hi (Nat.le_refl _)]
    congr 1
    by_cases hp : pages.getD i 0 ∈ (stateAt pages fc algo i).memory
    · rw [hhit.mpr hp, decide_eq_true ((hagree i hi).mp hp)]
    · have h1 : r.hit = false := by
        rcases hb : r.hit
        · rfl
        · exact absurd (hhit.mp hb) hp
      rw [h1, decide_eq_false (fun hc => hp ((hagree i hi).mpr hc))]

theorem computeSteps_simulate_equiv_witness :
    (computeSteps [1, 2, 1] 1 "fifo").faults = (simulate [1, 2, 1] 1 "fifo").faults ∧
    ∀ i, i < [1, 2, 1].length → ∃ r : Step,
      (computeSteps [1, 2, 1] 1 "fifo").steps[i]? = some r ∧
      (simulate [1, 2, 1] 1 "fifo").hitsLog[i]? = some r.hit :=
  computeSteps_simulate_equiv [1, 2, 1] 1 (by decide) "fifo" (by decide)
